import Mathlib

/-!
Verification of the `textandbinaryreader` framing library.

The library multiplexes/demultiplexes a byte stream interleaving plain text
with binary blobs.  A blob is framed as an 8-byte marker, a little-endian
uint32 id, a little-endian uint32 size, then `size` body bytes.

This file gives a shallow embedding over `List Nat` byte streams:
* the header codec `WriteBlobHeader` / `ReadBlobHeader` /
  `ReadBlobHeaderExcludingMarker`,
* the pull-based demultiplexing `Reader.Read` loop (`readerReadGo`),
* the push-based multiplexing `Writer.Write` state machine (`writerWriteGo`)
  and `Writer.Close`,
and proves functional-correctness, conservation and error-propagation
properties about them.

Machine integers are modelled as `Nat` with explicit `% 2^32` reasoning,
streams as finite `List Nat` (each element one byte).  Read/write loops are
written with an explicit fuel argument that strictly bounds the number of
loop iterations, so every definition is executable by kernel reduction;
the canonical wrappers instantiate the fuel with a provably sufficient bound.
-/

namespace TBR

/-- Errors of the embedded IO layer: `eof` is `io.EOF` (ordinary end of
stream), `unexpectedEOF` is `io.ErrUnexpectedEOF`, `handlerFail c` stands for
the distinct error value returned by the blob handler, `closeFail c` for an
error of an underlying `Close`. -/
inductive IOError where
  | eof
  | unexpectedEOF
  | handlerFail (code : Nat)
  | closeFail (code : Nat)
  deriving DecidableEq, Repr

/-- The fixed 8-byte blob marker `{'T','A','K','3','5','E','M','1'}` of the
`textandbinaryreader` package. -/
def BlobMarker : List Nat := [84, 65, 75, 51, 53, 69, 77, 49]

theorem blobMarker_length : BlobMarker.length = 8 := rfl

/-- Little-endian encoding of a `uint32` value (4 bytes). -/
def putUint32le (v : Nat) : List Nat :=
  [v % 256, v / 256 % 256, v / 256 / 256 % 256, v / 256 / 256 / 256 % 256]

theorem putUint32le_length (v : Nat) : (putUint32le v).length = 4 := rfl

/-- Little-endian decoding of 4 bytes into a `uint32` value. -/
def getUint32le (b0 b1 b2 b3 : Nat) : Nat :=
  b0 + 256 * (b1 + 256 * (b2 + 256 * b3))

/-- Decode the first four bytes of a list, little-endian. -/
def dec4 (l : List Nat) : Nat :=
  getUint32le (l.getD 0 0) (l.getD 1 0) (l.getD 2 0) (l.getD 3 0)

theorem getUint32le_putUint32le (v : Nat) (h : v < 2 ^ 32) :
    dec4 (putUint32le v) = v := by
  have hv : dec4 (putUint32le v) =
      v % 256 + 256 * (v / 256 % 256 + 256 * (v / 256 / 256 % 256 +
        256 * (v / 256 / 256 / 256 % 256))) := rfl
  rw [hv]
  omega

theorem dec4_append_of_length_eq (l r : List Nat) (h : l.length = 4) :
    dec4 (l ++ r) = dec4 l := by
  match l, h with
  | [a, b, c, d], _ => rfl

/-- The semantics of `io.ReadFull` on a finite stream: on success it returns
the first `k` bytes and the remainder; if the stream holds fewer than `k`
bytes it consumes everything and fails with `io.EOF` when nothing at all was
available, `io.ErrUnexpectedEOF` otherwise. -/
def readFull (k : Nat) (s : List Nat) : Except IOError (List Nat) × List Nat :=
  if k ≤ s.length then (.ok (s.take k), s.drop k)
  else if s.length = 0 then (.error .eof, [])
  else (.error .unexpectedEOF, [])

/-- `WriteBlobHeader w id size` emits the marker, then the id, then the
size, each little-endian, onto the stream. -/
def WriteBlobHeader (id size : Nat) : List Nat :=
  BlobMarker ++ putUint32le id ++ putUint32le size

theorem writeBlobHeader_length (id size : Nat) :
    (WriteBlobHeader id size).length = 16 := rfl

/-- `ReadBlobHeaderExcludingMarker` reads a blob header from the stream,
the marker excluded: a little-endian uint32 id then a little-endian uint32
size (each read via `io.ReadFull` on 4 bytes, as `binary.Read` does). -/
def ReadBlobHeaderExcludingMarker (s : List Nat) :
    Except IOError (Nat × Nat) × List Nat :=
  match readFull 4 s with
  | (.error e, s1) => (.error e, s1)
  | (.ok idb, s1) =>
    match readFull 4 s1 with
    | (.error e, s2) => (.error e, s2)
    | (.ok szb, s2) => (.ok (dec4 idb, dec4 szb), s2)

/-- `ReadBlobHeader` reads 8 bytes with `io.ReadFull`, requires them to be
exactly the marker (failing with `io.ErrUnexpectedEOF` otherwise), then
reads the id and size. -/
def ReadBlobHeader (s : List Nat) : Except IOError (Nat × Nat) × List Nat :=
  match readFull 8 s with
  | (.error e, s1) => (.error e, s1)
  | (.ok m, s1) =>
    if m = BlobMarker then ReadBlobHeaderExcludingMarker s1
    else (.error .unexpectedEOF, s1)

theorem readFull_exact (k : Nat) (s : List Nat) (h : k ≤ s.length) :
    readFull k s = (.ok (s.take k), s.drop k) := by
  simp [readFull, h]

theorem readFull_append (k : Nat) (l r : List Nat) (h : l.length = k) :
    readFull k (l ++ r) = (.ok l, r) := by
  rw [readFull_exact k (l ++ r) (by simp [h]),
    List.take_left' h, List.drop_left' h]

theorem readBlobHeaderExcludingMarker_ok (id size : Nat) (rest : List Nat)
    (hid : id < 2 ^ 32) (hsize : size < 2 ^ 32) :
    ReadBlobHeaderExcludingMarker (putUint32le id ++ (putUint32le size ++ rest)) =
      (.ok (id, size), rest) := by
  have h1 := readFull_append 4 (putUint32le id) (putUint32le size ++ rest) rfl
  have h2 := readFull_append 4 (putUint32le size) rest rfl
  simp only [ReadBlobHeaderExcludingMarker, h1, h2,
    getUint32le_putUint32le id hid, getUint32le_putUint32le size hsize]

theorem readBlobHeader_of_writeBlobHeader (id size : Nat) (rest : List Nat)
    (hid : id < 2 ^ 32) (hsize : size < 2 ^ 32) :
    ReadBlobHeader (WriteBlobHeader id size ++ rest) = (.ok (id, size), rest) := by
  have h1 : readFull 8 (WriteBlobHeader id size ++ rest) =
      (.ok BlobMarker, putUint32le id ++ (putUint32le size ++ rest)) := by
    have := readFull_append 8 BlobMarker
      (putUint32le id ++ (putUint32le size ++ rest)) rfl
    simpa [WriteBlobHeader, List.append_assoc] using this
  simp [ReadBlobHeader, h1,
    readBlobHeaderExcludingMarker_ok id size rest hid hsize]

/-! ### Interleaved streams as sequences of segments

An interleaved stream is described by a list of segments, each either a run
of text bytes or a blob `(id, body)`; `encodeSegs` produces the bytes on the
wire (each blob as `WriteBlobHeader id body.length ++ body`). -/

/-- A segment of the interleaved stream: a text run or a blob. -/
inductive Seg where
  | text (bs : List Nat)
  | blob (id : Nat) (body : List Nat)
  deriving DecidableEq, Repr

/-- Wire encoding of one segment. -/
def encodeSeg : Seg → List Nat
  | .text bs => bs
  | .blob id body => WriteBlobHeader id body.length ++ body

/-- Wire encoding of a segment list. -/
def encodeSegs : List Seg → List Nat
  | [] => []
  | g :: r => encodeSeg g ++ encodeSegs r

/-- The text of a segment list, blobs removed. -/
def textOf : List Seg → List Nat
  | [] => []
  | .text bs :: r => bs ++ textOf r
  | .blob _ _ :: r => textOf r

/-- The `(id, body)` pairs of a segment list, in order. -/
def blobsOf : List Seg → List (Nat × List Nat)
  | [] => []
  | .text _ :: r => blobsOf r
  | .blob id body :: r => (id, body) :: blobsOf r

/-- The concatenated header+body frames of a segment list, in order. -/
def framesOf : List Seg → List Nat
  | [] => []
  | .text _ :: r => framesOf r
  | .blob id body :: r => WriteBlobHeader id body.length ++ body ++ framesOf r

/-- Every blob's id and declared size fit in a `uint32`. -/
def wfSegs : List Seg → Prop
  | [] => True
  | .text _ :: r => wfSegs r
  | .blob id body :: r => id < 2 ^ 32 ∧ body.length < 2 ^ 32 ∧ wfSegs r

instance wfSegsDec : (L : List Seg) → Decidable (wfSegs L)
  | [] => .isTrue trivial
  | .text _ :: r => by unfold wfSegs; exact wfSegsDec r
  | .blob id body :: r => by
    unfold wfSegs
    have := wfSegsDec r
    exact inferInstance

/-- No 8-byte window starting inside a text run of the stream equals the
marker (windows may extend past the run into the rest of the stream). -/
def safeSegs : List Seg → Prop
  | [] => True
  | .text bs :: r =>
    (∀ i < bs.length, ((bs.drop i ++ encodeSegs r).take 8) ≠ BlobMarker) ∧
      safeSegs r
  | .blob _ _ :: r => safeSegs r

instance safeSegsDec : (L : List Seg) → Decidable (safeSegs L)
  | [] => .isTrue trivial
  | .text bs :: r => by
    unfold safeSegs
    have := safeSegsDec r
    exact inferInstance
  | .blob _ _ :: r => by unfold safeSegs; exact safeSegsDec r

theorem encodeSegs_append (L M : List Seg) :
    encodeSegs (L ++ M) = encodeSegs L ++ encodeSegs M := by
  induction L with
  | nil => rfl
  | cons g r ih => simp [encodeSegs, ih]

theorem encodeSeg_blob_length (id : Nat) (body : List Nat) :
    (encodeSeg (.blob id body)).length = 16 + body.length := by
  simp [encodeSeg, WriteBlobHeader, BlobMarker, putUint32le]
  omega

theorem textOf_le_encodeSegs_length (L : List Seg) :
    (textOf L).length ≤ (encodeSegs L).length := by
  induction L with
  | nil => simp [textOf, encodeSegs]
  | cons g r ih =>
    cases g with
    | text bs => simp [textOf, encodeSegs, encodeSeg]; omega
    | blob id body => simp [textOf, encodeSegs]; omega

/-- A stream too short to hold a frame comes from an all-text segment list. -/
theorem short_encodeSegs_all_text (L : List Seg)
    (h : (encodeSegs L).length < 16) :
    textOf L = encodeSegs L ∧ blobsOf L = [] := by
  induction L with
  | nil => exact ⟨rfl, rfl⟩
  | cons g r ih =>
    cases g with
    | text bs =>
      have hr : (encodeSegs r).length < 16 := by
        simp [encodeSegs, encodeSeg] at h; omega
      obtain ⟨h1, h2⟩ := ih hr
      exact ⟨by simp [textOf, encodeSegs, encodeSeg, h1],
        by simp [blobsOf, h2]⟩
    | blob id body =>
      exfalso
      have := encodeSeg_blob_length id body
      simp [encodeSegs] at h
      omega

/-! ### The demultiplexing Reader

`Reader.Read` repeatedly peeks `len(BlobMarker)` bytes.  If fewer are
available the rest of the stream is text; if the peeked bytes equal the
marker it discards the marker, reads the header, hands a bounded
`io.LimitReader` view of the body to the blob handler, then drains whatever
the handler left unread; otherwise it moves one text byte to the
destination.  The handler is modelled by how many bytes it reads of the
bounded view and whether it fails, both as functions of the id and of the
view's contents. -/

/-- Model of the caller-supplied blob handler: `reads id view` is how many
bytes of the bounded view it consumes (clamped to the view's length),
`fails id view` its error, if it returns one. -/
structure BlobHandler where
  reads : Nat → List Nat → Nat
  fails : Nat → List Nat → Option Nat

/-- The handler that reads the whole bounded view and succeeds, as
`io.ReadAll` does. -/
def readAllHandler : BlobHandler where
  reads := fun _ view => view.length
  fails := fun _ _ => none

/-- Observable events of one `Read` call: `blob id view k` is a successful
handler invocation that was offered the bounded view `view` and read `k`
of its bytes (the framing layer then drained the rest); `blobFail` is a
handler invocation that returned an error after reading `k` bytes;
`hdrShort got` is a header read that failed after the marker with only
`got` bytes left in the stream. -/
inductive ReadEv where
  | blob (id : Nat) (view : List Nat) (k : Nat)
  | blobFail (id : Nat) (view : List Nat) (k : Nat) (code : Nat)
  | hdrShort (got : Nat)
  deriving DecidableEq, Repr

/-- Bytes consumed from the source by an event: 8 marker + 8 header bytes
plus the drained body for a successful blob, 8 + 8 + `k` read bytes for a
failed handler, 8 + the partial header for a short header. -/
def evCost : ReadEv → Nat
  | .blob _ view _ => 16 + view.length
  | .blobFail _ _ k _ => 16 + k
  | .hdrShort got => 8 + got

/-- One `Reader.Read` call with destination capacity `cap` on stream `s`,
with explicit fuel (sufficient whenever `s.length < fuel`).  Returns the
text bytes produced, the events, the error returned by the call (if any)
and the remaining stream. -/
def readerReadGo (h : BlobHandler) :
    Nat → Nat → List Nat → List Nat × List ReadEv × Option IOError × List Nat
  | 0, _, s => ([], [], none, s)
  | _ + 1, 0, s => ([], [], none, s)
  | fuel + 1, cap + 1, s =>
    if s.length < 8 then
      -- bufio.Peek failed: whatever is left is text
      if s.length = 0 then ([], [], some .eof, [])
      else (s.take (cap + 1), [], none, s.drop (cap + 1))
    else
      if s.take 8 = BlobMarker then
        -- discard the marker, read the header
        let s1 := s.drop 8
        match ReadBlobHeaderExcludingMarker s1 with
        | (.error e, _) => ([], [.hdrShort s1.length], some e, [])
        | (.ok (id, size), s2) =>
          -- bounded view of the body, handler call
          let view := s2.take size
          let k := min (h.reads id view) view.length
          match h.fails id view with
          | some c =>
            ([], [.blobFail id view k c], some (.handlerFail c), s2.drop k)
          | none =>
            -- drain the rest of the bounded view
            let s3 := s2.drop size
            let (t, evs, e, s') := readerReadGo h fuel (cap + 1) s3
            (t, .blob id view k :: evs, e, s')
      else
        match s with
        | [] => ([], [], some .eof, [])
        | b :: s1 =>
          let (t, evs, e, s') := readerReadGo h fuel cap s1
          (b :: t, evs, e, s')

/-- One `Reader.Read` call (canonical fuel). -/
def readerRead (h : BlobHandler) (cap : Nat) (s : List Nat) :
    List Nat × List ReadEv × Option IOError × List Nat :=
  readerReadGo h (s.length + 1) cap s

/-- Drive `Reader.Read` as `io.CopyBuffer` does: call it with destination
capacities `caps 0`, `caps 1`, … until it reports an error; `io.EOF` is the
clean termination signal and is not surfaced.  Fuel bounds the number of
calls. -/
def readerRun (h : BlobHandler) (caps : Nat → Nat) :
    Nat → Nat → List Nat → List Nat × List ReadEv × Option IOError × List Nat
  | 0, _, s => ([], [], none, s)
  | fuel + 1, i, s =>
    match readerRead h (caps i) s with
    | (t, evs, some .eof, s') => (t, evs, none, s')
    | (t, evs, some e, s') => (t, evs, some e, s')
    | (t, evs, none, s') =>
      let (t2, evs2, e, s'') := readerRun h caps fuel (i + 1) s'
      (t ++ t2, evs ++ evs2, e, s'')

/-- A whole demultiplexing run over stream `s` (canonical fuel). -/
def demuxRun (h : BlobHandler) (caps : Nat → Nat) (s : List Nat) :
    List Nat × List ReadEv × Option IOError × List Nat :=
  readerRun h caps (s.length + 1) 0 s

/-! ### Header decode facts -/

/-- The error `ReadBlobHeaderExcludingMarker` reports on a stream of `n < 8`
bytes: `io.EOF` when a 4-byte read finds nothing, `io.ErrUnexpectedEOF`
when it finds a strict prefix. -/
def shortHeaderErr (n : Nat) : IOError :=
  if n = 0 then .eof
  else if n < 4 then .unexpectedEOF
  else if n = 4 then .eof
  else .unexpectedEOF

theorem rbhem_of_ge (s : List Nat) (h : 8 ≤ s.length) :
    ReadBlobHeaderExcludingMarker s =
      (.ok (dec4 (s.take 4), dec4 ((s.drop 4).take 4)), s.drop 8) := by
  have h1 : readFull 4 s = (.ok (s.take 4), s.drop 4) :=
    readFull_exact 4 s (by omega)
  have h2 : readFull 4 (s.drop 4) = (.ok ((s.drop 4).take 4), s.drop 8) := by
    rw [readFull_exact 4 (s.drop 4) (by simp; omega)]
    simp [List.drop_drop]
  simp [ReadBlobHeaderExcludingMarker, h1, h2]

theorem rbhem_of_lt (s : List Nat) (h : s.length < 8) :
    ReadBlobHeaderExcludingMarker s = (.error (shortHeaderErr s.length), []) := by
  rcases Nat.lt_or_ge s.length 4 with h4 | h4
  · by_cases h0 : s.length = 0
    · have h1 : readFull 4 s = (.error .eof, []) := by
        unfold readFull
        simp [h0]
      simp [ReadBlobHeaderExcludingMarker, h1, shortHeaderErr, h0]
    · have h1 : readFull 4 s = (.error .unexpectedEOF, []) := by
        unfold readFull
        simp [h0, show ¬ (4 ≤ s.length) by omega]
      simp [ReadBlobHeaderExcludingMarker, h1, shortHeaderErr, h0, h4]
  · have h1 : readFull 4 s = (.ok (s.take 4), s.drop 4) :=
      readFull_exact 4 s (by omega)
    by_cases he : s.length = 4
    · have h2 : readFull 4 (s.drop 4) = (.error .eof, []) := by
        unfold readFull
        simp [he]
      simp [ReadBlobHeaderExcludingMarker, h1, h2, shortHeaderErr, he]
    · have h2 : readFull 4 (s.drop 4) = (.error .unexpectedEOF, []) := by
        unfold readFull
        simp [show ¬ (4 ≤ s.length - 4) by omega,
          show ¬ (s.length - 4 = 0) by omega]
      simp [ReadBlobHeaderExcludingMarker, h1, h2, shortHeaderErr,
        show ¬ (s.length = 0) by omega, show ¬ (s.length < 4) by omega, he]

/-! ### Reader: byte conservation and fuel stability -/

theorem readerReadGo_conserve (h : BlobHandler) :
    ∀ fuel cap s t evs e s',
      readerReadGo h fuel cap s = (t, evs, e, s') →
      t.length + (evs.map evCost).sum + s'.length = s.length := by
  intro fuel
  induction fuel with
  | zero =>
    intro cap s t evs e s' heq
    simp only [readerReadGo, Prod.mk.injEq] at heq
    obtain ⟨h1, h2, h3, h4⟩ := heq
    subst h1; subst h2; subst h4
    simp
  | succ fuel ih =>
    intro cap s t evs e s' heq
    match cap with
    | 0 =>
      simp only [readerReadGo, Prod.mk.injEq] at heq
      obtain ⟨h1, h2, h3, h4⟩ := heq
      subst h1; subst h2; subst h4
      simp
    | cap + 1 =>
      simp only [readerReadGo] at heq
      by_cases hlen : s.length < 8
      · rw [if_pos hlen] at heq
        by_cases h0 : s.length = 0
        · rw [if_pos h0] at heq
          simp only [Prod.mk.injEq] at heq
          obtain ⟨h1, h2, h3, h4⟩ := heq
          subst h1; subst h2; subst h4
          simp [h0]
        · rw [if_neg h0] at heq
          simp only [Prod.mk.injEq] at heq
          obtain ⟨h1, h2, h3, h4⟩ := heq
          subst h1; subst h2; subst h4
          simp
          omega
      · rw [if_neg hlen] at heq
        by_cases hmk : s.take 8 = BlobMarker
        · rw [if_pos hmk] at heq
          by_cases hs1 : (s.drop 8).length < 8
          · rw [rbhem_of_lt _ hs1] at heq
            simp only [Prod.mk.injEq] at heq
            obtain ⟨h1, h2, h3, h4⟩ := heq
            subst h1; subst h2; subst h4
            simp [evCost]
            simp at hs1 ⊢
            omega
          · push_neg at hs1
            rw [rbhem_of_ge _ hs1] at heq
            simp only at heq
            set s2 := (s.drop 8).drop 8 with hs2
            set size := dec4 ((s.drop 8).drop 4 |>.take 4) with hsize
            set id := dec4 ((s.drop 8).take 4) with hid
            set view := s2.take size with hview
            set k := min (h.reads id view) view.length with hk
            have hklen : k ≤ s2.length := by
              have hvk : view.length ≤ s2.length := by
                rw [hview, List.length_take]; omega
              omega
            have hs2len : s2.length = s.length - 16 := by simp [hs2]
            cases hf : h.fails id view with
            | some c =>
              rw [hf] at heq
              simp only [Prod.mk.injEq] at heq
              obtain ⟨h1, h2, h3, h4⟩ := heq
              subst h1; subst h2; subst h4
              simp [evCost]
              simp at hs1
              omega
            | none =>
              rw [hf] at heq
              rcases hrec : readerReadGo h fuel (cap + 1) (s2.drop size)
                with ⟨t0, evs0, e0, s0⟩
              rw [hrec] at heq
              simp only [Prod.mk.injEq] at heq
              obtain ⟨h1, h2, h3, h4⟩ := heq
              subst h1; subst h2; subst h4
              have hihl := ih (cap + 1) (s2.drop size) t0 evs0 e0 s0 hrec
              have hvl : view.length = min size s2.length := by
                rw [hview]; exact List.length_take _ _
              have hdl : (s2.drop size).length = s2.length - size := by simp
              simp [evCost]
              simp at hs1
              omega
        · rw [if_neg hmk] at heq
          match s, hlen, heq with
          | b :: s1, _, heq =>
            rcases hrec : readerReadGo h fuel cap s1 with ⟨t0, evs0, e0, s0⟩
            simp only [hrec, Prod.mk.injEq] at heq
            obtain ⟨h1, h2, h3, h4⟩ := heq
            subst h1; subst h2; subst h4
            have hihl := ih cap s1 t0 evs0 e0 s0 hrec
            simp
            omega

/-- The remaining stream a `Read` call leaves behind is never longer than
the stream it started from. -/
theorem readerReadGo_rest_le (h : BlobHandler) (fuel cap : Nat) (s : List Nat) :
    (readerReadGo h fuel cap s).2.2.2.length ≤ s.length := by
  rcases heq : readerReadGo h fuel cap s with ⟨t, evs, e, s'⟩
  have := readerReadGo_conserve h fuel cap s t evs e s' heq
  simp
  omega

/-- Any two sufficient fuels give the same result. -/
theorem readerReadGo_stable (h : BlobHandler) :
    ∀ m fuel fuel2 cap s, s.length ≤ m → s.length < fuel → s.length < fuel2 →
      readerReadGo h fuel cap s = readerReadGo h fuel2 cap s := by
  intro m
  induction m with
  | zero =>
    intro fuel fuel2 cap s hs hf hf2
    have h0 : s = [] := List.eq_nil_of_length_eq_zero (by omega)
    subst h0
    match fuel, hf, fuel2, hf2 with
    | fuel + 1, _, fuel2 + 1, _ =>
      match cap with
      | 0 => rfl
      | cap + 1 => rfl
  | succ m ih =>
    intro fuel fuel2 cap s hs hf hf2
    match fuel, hf, fuel2, hf2 with
    | fuel + 1, hf, fuel2 + 1, hf2 =>
      match cap with
      | 0 => rfl
      | cap + 1 =>
        simp only [readerReadGo]
        by_cases hlen : s.length < 8
        · rw [if_pos hlen, if_pos hlen]
        · rw [if_neg hlen, if_neg hlen]
          by_cases hmk : s.take 8 = BlobMarker
          · rw [if_pos hmk, if_pos hmk]
            by_cases hs1 : (s.drop 8).length < 8
            · rw [rbhem_of_lt _ hs1]
            · push_neg at hs1
              rw [rbhem_of_ge _ hs1]
              simp only
              cases hfl : h.fails (dec4 ((s.drop 8).take 4))
                  (((s.drop 8).drop 8).take (dec4 ((s.drop 8).drop 4 |>.take 4))) with
              | some c => rfl
              | none =>
                have hL : (((s.drop 8).drop 8).drop
                    (dec4 ((s.drop 8).drop 4 |>.take 4))).length =
                    s.length - 16 - dec4 ((s.drop 8).drop 4 |>.take 4) := by
                  simp
                  omega
                have hd : (((s.drop 8).drop 8).drop
                    (dec4 ((s.drop 8).drop 4 |>.take 4))).length ≤ m := by
                  simp at hs1
                  omega
                rw [ih fuel fuel2 (cap + 1) _ hd (by omega) (by omega)]
          · rw [if_neg hmk, if_neg hmk]
            rcases s with _ | ⟨b, s1⟩
            · exact absurd (by simp) hlen
            · simp only
              have hd : s1.length ≤ m := by simp at hs; omega
              have hb1 : s1.length < fuel := by simp at hf; omega
              have hb2 : s1.length < fuel2 := by simp at hf2; omega
              rw [ih fuel fuel2 cap s1 hd hb1 hb2]

theorem readerReadGo_eq_readerRead (h : BlobHandler) (fuel cap : Nat)
    (s : List Nat) (hf : s.length < fuel) :
    readerReadGo h fuel cap s = readerRead h cap s :=
  readerReadGo_stable h s.length fuel (s.length + 1) cap s (le_refl _) hf
    (Nat.lt_succ_self _)

/-! ### Reader: single-step characterisations -/

theorem take8_ne_marker_of_short (u : List Nat) (h : u.length < 8) :
    u.take 8 ≠ BlobMarker := by
  intro heq
  have := congrArg List.length heq
  simp [BlobMarker] at this
  omega

theorem readerReadGo_cap0 (h : BlobHandler) (f : Nat) (s : List Nat) :
    readerReadGo h (f + 1) 0 s = ([], [], none, s) := rfl

theorem readerReadGo_nil (h : BlobHandler) (f c : Nat) :
    readerReadGo h (f + 1) (c + 1) [] = ([], [], some .eof, []) := rfl

theorem readerReadGo_short (h : BlobHandler) (f c : Nat) (s : List Nat)
    (hlen : s.length < 8) (hne : s ≠ []) :
    readerReadGo h (f + 1) (c + 1) s = (s.take (c + 1), [], none, s.drop (c + 1)) := by
  have h0 : ¬ (s.length = 0) := by
    intro h0
    exact hne (List.eq_nil_of_length_eq_zero h0)
  simp only [readerReadGo, if_pos hlen, if_neg h0]

theorem readerReadGo_text_step (h : BlobHandler) (f c : Nat) (b : Nat)
    (s1 : List Nat) (hlen : ¬ (b :: s1).length < 8)
    (hmk : (b :: s1).take 8 ≠ BlobMarker) :
    readerReadGo h (f + 1) (c + 1) (b :: s1) =
      (b :: (readerReadGo h f c s1).1, (readerReadGo h f c s1).2.1,
        (readerReadGo h f c s1).2.2.1, (readerReadGo h f c s1).2.2.2) := by
  simp only [readerReadGo, if_neg hlen, if_neg hmk]

theorem readerReadGo_frame_step (h : BlobHandler) (f c : Nat) (id : Nat)
    (body rest : List Nat) (hid : id < 2 ^ 32) (hsz : body.length < 2 ^ 32) :
    readerReadGo h (f + 1) (c + 1) (WriteBlobHeader id body.length ++ (body ++ rest)) =
      (match h.fails id body with
       | some cd =>
         ([], [.blobFail id body (min (h.reads id body) body.length) cd],
           some (.handlerFail cd),
           (body ++ rest).drop (min (h.reads id body) body.length))
       | none =>
         ((readerReadGo h f (c + 1) rest).1,
           .blob id body (min (h.reads id body) body.length) ::
             (readerReadGo h f (c + 1) rest).2.1,
           (readerReadGo h f (c + 1) rest).2.2.1,
           (readerReadGo h f (c + 1) rest).2.2.2)) := by
  set s := WriteBlobHeader id body.length ++ (body ++ rest) with hsdef
  have hsplit : s = BlobMarker ++
      (putUint32le id ++ (putUint32le body.length ++ (body ++ rest))) := by
    simp [hsdef, WriteBlobHeader, List.append_assoc]
  have hslen : ¬ s.length < 8 := by
    rw [hsplit]
    simp [BlobMarker]
  have hmk : s.take 8 = BlobMarker := by
    rw [hsplit]
    exact List.take_left' rfl
  have hdrop : s.drop 8 =
      putUint32le id ++ (putUint32le body.length ++ (body ++ rest)) := by
    rw [hsplit]
    exact List.drop_left' rfl
  have hrb : ReadBlobHeaderExcludingMarker (s.drop 8) =
      (.ok (id, body.length), body ++ rest) := by
    rw [hdrop]
    exact readBlobHeaderExcludingMarker_ok id body.length (body ++ rest) hid hsz
  have hview : (body ++ rest).take body.length = body := List.take_left' rfl
  have hdrain : (body ++ rest).drop body.length = rest := List.drop_left' rfl
  simp only [readerReadGo, if_neg hslen, if_pos hmk, hrb, hview, hdrain]

/-! ### Reader: correctness on encoded streams -/

/-- The event a non-failing handler produces on a blob `(id, body)` whose
bounded view is the whole body. -/
def evOfBlob (h : BlobHandler) (p : Nat × List Nat) : ReadEv :=
  .blob p.1 p.2 (min (h.reads p.1 p.2) p.2.length)

/-- One `Read` call on an encoded stream: it produces a text chunk, invokes
the handler on the blobs it crosses (offering each full body as the bounded
view), and leaves an encoded stream behind. -/
theorem readerReadGo_encode (h : BlobHandler)
    (hok : ∀ id v, h.fails id v = none) :
    ∀ N L fuel cap, (encodeSegs L).length + L.length ≤ N →
      safeSegs L → wfSegs L → (encodeSegs L).length < fuel →
      ∃ t evs e L',
        readerReadGo h fuel cap (encodeSegs L) = (t, evs, e, encodeSegs L') ∧
        safeSegs L' ∧ wfSegs L' ∧
        textOf L = t ++ textOf L' ∧
        (∃ B, blobsOf L = B ++ blobsOf L' ∧ evs = B.map (evOfBlob h)) ∧
        (e = none ∨ e = some .eof) ∧
        (e = some .eof → encodeSegs L' = []) ∧
        (e = none → 0 < cap → (encodeSegs L').length < (encodeSegs L).length) := by
  intro N
  induction N with
  | zero =>
    intro L fuel cap hN hsafe hwf hfuel
    have hL : L = [] := List.eq_nil_of_length_eq_zero (by omega)
    subst hL
    obtain ⟨f, rfl⟩ : ∃ f, fuel = f + 1 := ⟨fuel - 1, by omega⟩
    cases cap with
    | zero =>
      exact ⟨[], [], none, [], by rw [readerReadGo_cap0], trivial, trivial,
        by simp [textOf], ⟨[], by simp, by simp⟩, Or.inl rfl, by simp,
        fun _ h0 => absurd h0 (by omega)⟩
    | succ c =>
      refine ⟨[], [], some .eof, [], ?_, trivial, trivial,
        by simp [textOf], ⟨[], by simp, by simp⟩, Or.inr rfl,
        fun _ => rfl, by simp⟩
      show readerReadGo h (f + 1) (c + 1) [] = ([], [], some .eof, [])
      exact readerReadGo_nil h f c
  | succ N ih =>
    intro L fuel cap hN hsafe hwf hfuel
    obtain ⟨f, rfl⟩ : ∃ f, fuel = f + 1 := ⟨fuel - 1, by omega⟩
    match L with
    | [] =>
      cases cap with
      | zero =>
        exact ⟨[], [], none, [], by rw [readerReadGo_cap0], trivial, trivial,
          by simp [textOf], ⟨[], by simp, by simp⟩, Or.inl rfl, by simp,
          fun _ h0 => absurd h0 (by omega)⟩
      | succ c =>
        refine ⟨[], [], some .eof, [], ?_, trivial, trivial,
          by simp [textOf], ⟨[], by simp, by simp⟩, Or.inr rfl,
          fun _ => rfl, by simp⟩
        show readerReadGo h (f + 1) (c + 1) [] = ([], [], some .eof, [])
        exact readerReadGo_nil h f c
    | .text [] :: r =>
      have hs : encodeSegs (.text [] :: r) = encodeSegs r := by
        simp [encodeSegs, encodeSeg]
      have hsr : safeSegs r := hsafe.2
      obtain ⟨t, evs, e, L', heq, hsL', hwL', htx, hbl, her, heof, hpr⟩ :=
        ih r (f + 1) cap (by simp [hs] at hN ⊢; omega) hsr hwf
          (by rw [hs] at hfuel; exact hfuel)
      refine ⟨t, evs, e, L', by rw [hs, heq], hsL', hwL', ?_, hbl, her, heof, ?_⟩
      · simpa [textOf] using htx
      · intro he hc
        rw [hs]
        exact hpr he hc
    | .text (b :: bs) :: r =>
      have hsL : encodeSegs (.text (b :: bs) :: r) = b :: (bs ++ encodeSegs r) := by
        simp [encodeSegs, encodeSeg]
      obtain ⟨hwin, hsr⟩ := hsafe
      cases cap with
      | zero =>
        exact ⟨[], [], none, .text (b :: bs) :: r, by rw [readerReadGo_cap0],
          ⟨hwin, hsr⟩, hwf, by simp, ⟨[], by simp, by simp⟩, Or.inl rfl,
          by simp, fun _ h0 => absurd h0 (by omega)⟩
      | succ c =>
        by_cases hlen : (encodeSegs (.text (b :: bs) :: r)).length < 8
        · -- near end of stream: everything left is text
          obtain ⟨htx0, hbl0⟩ :=
            short_encodeSegs_all_text (.text (b :: bs) :: r) (by omega)
          refine ⟨(encodeSegs (.text (b :: bs) :: r)).take (c + 1), [], none,
            [.text ((encodeSegs (.text (b :: bs) :: r)).drop (c + 1))], ?_, ?_,
            trivial, ?_, ⟨[], by simpa [blobsOf] using hbl0, by simp⟩,
            Or.inl rfl, by simp, ?_⟩
          · rw [readerReadGo_short h f c _ hlen (by rw [hsL]; simp)]
            simp [encodeSegs, encodeSeg]
          · refine ⟨?_, trivial⟩
            intro i hi
            apply take8_ne_marker_of_short
            have hnil : encodeSegs ([] : List Seg) = [] := rfl
            rw [hnil, List.append_nil]
            simp only [List.length_drop]
            omega
          · conv_lhs => rw [htx0]
            simp [textOf]
          · intro _ _
            have hx : encodeSegs
                [Seg.text ((encodeSegs (Seg.text (b :: bs) :: r)).drop (c + 1))] =
                (encodeSegs (Seg.text (b :: bs) :: r)).drop (c + 1) := by
              simp [encodeSegs, encodeSeg]
            have hpos : 0 < (encodeSegs (Seg.text (b :: bs) :: r)).length := by
              rw [hsL]
              simp
            rw [hx]
            simp only [List.length_drop]
            omega
        · -- scan one text byte
          have hmk : (encodeSegs (.text (b :: bs) :: r)).take 8 ≠ BlobMarker := by
            have h0 := hwin 0 (by simp)
            simpa [hsL] using h0
          have hsafeI : safeSegs (.text bs :: r) := by
            refine ⟨?_, hsr⟩
            intro i hi
            have := hwin (i + 1) (by simp; omega)
            simpa using this
          have hlenI : (encodeSegs (.text bs :: r)).length + 1 =
              (encodeSegs (.text (b :: bs) :: r)).length := by
            simp [encodeSegs, encodeSeg]
          have hcl : (Seg.text (b :: bs) :: r).length = (Seg.text bs :: r).length := by
            simp
          obtain ⟨t, evs, e, L', heq, hsL', hwL', htx, hbl, her, heof, hpr⟩ :=
            ih (.text bs :: r) f c (by omega) hsafeI hwf (by omega)
          have hstep := readerReadGo_text_step h f c b (bs ++ encodeSegs r)
            (by rw [hsL] at hlen; exact hlen) (by rw [hsL] at hmk; exact hmk)
          have hinner : encodeSegs (.text bs :: r) = bs ++ encodeSegs r := by
            simp [encodeSegs, encodeSeg]
          rw [hinner] at heq
          refine ⟨b :: t, evs, e, L', ?_, hsL', hwL', ?_, hbl, her, heof, ?_⟩
          · rw [hsL, hstep, heq]
          · have htx2 : bs ++ textOf r = t ++ textOf L' := by
              simpa [textOf] using htx
            simp only [textOf, List.cons_append]
            rw [htx2]
          · intro he _
            have hrest := readerReadGo_rest_le h f c (bs ++ encodeSegs r)
            rw [heq] at hrest
            simp at hrest
            have hil : (encodeSegs (Seg.text bs :: r)).length =
                bs.length + (encodeSegs r).length := by
              simp [hinner]
            omega
    | .blob id body :: r =>
      have hid : id < 2 ^ 32 := hwf.1
      have hsz : body.length < 2 ^ 32 := hwf.2.1
      have hwfr : wfSegs r := hwf.2.2
      have hsr : safeSegs r := hsafe
      have hsL : encodeSegs (.blob id body :: r) =
          WriteBlobHeader id body.length ++ (body ++ encodeSegs r) := by
        simp [encodeSegs, encodeSeg]
      have hLl : (encodeSegs (.blob id body :: r)).length =
          16 + body.length + (encodeSegs r).length := by
        rw [hsL]
        simp [WriteBlobHeader, BlobMarker, putUint32le]
        omega
      cases cap with
      | zero =>
        exact ⟨[], [], none, .blob id body :: r, by rw [readerReadGo_cap0],
          hsr, hwf, by simp, ⟨[], by simp, by simp⟩, Or.inl rfl,
          by simp, fun _ h0 => absurd h0 (by omega)⟩
      | succ c =>
        have hbl2 : (Seg.blob id body :: r).length = r.length + 1 := by simp
        obtain ⟨t, evs, e, L', heq, hsL', hwL', htx, ⟨B, hB, hevB⟩, her, heof, hpr⟩ :=
          ih r f (c + 1) (by omega) hsr hwfr (by omega)
        have hstep := readerReadGo_frame_step h f c id body (encodeSegs r) hid hsz
        rw [hok id body] at hstep
        refine ⟨t, .blob id body (min (h.reads id body) body.length) :: evs, e, L',
          ?_, hsL', hwL', ?_, ?_, her, heof, ?_⟩
        · rw [hsL, hstep, heq]
        · simpa [textOf] using htx
        · refine ⟨(id, body) :: B, ?_, ?_⟩
          · simp [blobsOf, hB]
          · simp [hevB, evOfBlob]
        · intro he _
          have hrest := readerReadGo_rest_le h f (c + 1) (encodeSegs r)
          rw [heq] at hrest
          simp at hrest
          omega

/-- Driving the reader to exhaustion over an encoded stream yields exactly
the text of the segments and one handler invocation per blob, in order, for
any sequence of positive destination capacities. -/
theorem readerRun_encode (h : BlobHandler) (hok : ∀ id v, h.fails id v = none)
    (caps : Nat → Nat) (hcaps : ∀ i, 0 < caps i) :
    ∀ M L i, safeSegs L → wfSegs L → (encodeSegs L).length < M →
      readerRun h caps M i (encodeSegs L) =
        (textOf L, (blobsOf L).map (evOfBlob h), none, []) := by
  intro M
  induction M with
  | zero =>
    intro L i _ _ hM
    exact absurd hM (by omega)
  | succ M ihM =>
    intro L i hsafe hwf hM
    obtain ⟨t, evs, e, L', heq, hsL', hwL', htx, ⟨B, hB, hevB⟩, her, heof, hpr⟩ :=
      readerReadGo_encode h hok ((encodeSegs L).length + L.length) L
        ((encodeSegs L).length + 1) (caps i) le_rfl hsafe hwf (by omega)
    have heq2 : readerRead h (caps i) (encodeSegs L) = (t, evs, e, encodeSegs L') :=
      heq
    rcases her with he | he
    · -- the call made progress; the driver loops
      subst he
      have hlt : (encodeSegs L').length < M := by
        have := hpr rfl (hcaps i)
        omega
      have hrec := ihM L' (i + 1) hsL' hwL' hlt
      simp only [readerRun, heq2, hrec]
      simp [htx, hB, hevB]
    · -- end of stream: io.Copy treats io.EOF as clean termination
      subst he
      have hnil : encodeSegs L' = [] := heof rfl
      obtain ⟨htx', hbl'⟩ := short_encodeSegs_all_text L' (by rw [hnil]; simp)
      rw [hnil] at htx'
      simp only [readerRun, heq2]
      simp [htx, ← htx', hevB, hB, hbl', hnil]

/-- A whole demultiplexing run over an encoded stream. -/
theorem demuxRun_encode (h : BlobHandler) (hok : ∀ id v, h.fails id v = none)
    (caps : Nat → Nat) (hcaps : ∀ i, 0 < caps i) (L : List Seg)
    (hsafe : safeSegs L) (hwf : wfSegs L) :
    demuxRun h caps (encodeSegs L) =
      (textOf L, (blobsOf L).map (evOfBlob h), none, []) :=
  readerRun_encode h hok caps hcaps ((encodeSegs L).length + 1) L 0 hsafe hwf
    (by omega)

/-! ### Reader: pure text streams -/

/-- A byte list none of whose 8-byte windows is the marker (windows shorter
than 8 bytes can never be). -/
def markerFree (u : List Nat) : Prop :=
  ∀ i < u.length, (u.drop i).take 8 ≠ BlobMarker

instance (u : List Nat) : Decidable (markerFree u) := by
  unfold markerFree
  exact inferInstance

/-- On a marker-free stream any `Read` call copies bytes straight through,
regardless of the handler and the destination capacity. -/
theorem readerReadGo_text_all (h : BlobHandler) :
    ∀ fuel cap u, u ≠ [] → markerFree u → u.length < fuel →
      readerReadGo h fuel cap u = (u.take cap, [], none, u.drop cap) := by
  intro fuel
  induction fuel with
  | zero =>
    intro cap u _ _ hf
    exact absurd hf (by omega)
  | succ fuel ih =>
    intro cap u hne hmf hf
    cases cap with
    | zero => rw [readerReadGo_cap0]; simp
    | succ c =>
      by_cases hlen : u.length < 8
      · rw [readerReadGo_short h fuel c u hlen hne]
      · rcases u with _ | ⟨b, u1⟩
        · exact absurd rfl hne
        · have hmk : (b :: u1).take 8 ≠ BlobMarker := by
            have := hmf 0 (by simp)
            simpa using this
          rw [readerReadGo_text_step h fuel c b u1 hlen hmk]
          have hu1 : u1 ≠ [] := by
            intro hnil
            rw [hnil] at hlen
            simp at hlen
          have hmf1 : markerFree u1 := by
            intro i hi
            have := hmf (i + 1) (by simp; omega)
            simpa using this
          rw [ih c u1 hu1 hmf1 (by simp at hf; omega)]
          simp

/-- A full run over a marker-free stream copies it through unchanged, with
no handler invocation, for any positive capacities. -/
theorem readerRun_text (h : BlobHandler) (caps : Nat → Nat)
    (hcaps : ∀ i, 0 < caps i) :
    ∀ M u i, markerFree u → u.length < M →
      readerRun h caps M i u = (u, [], none, []) := by
  intro M
  induction M with
  | zero =>
    intro u i _ hM
    exact absurd hM (by omega)
  | succ M ihM =>
    intro u i hmf hM
    rcases List.eq_nil_or_concat u with hnil | _
    case inl =>
      subst hnil
      obtain ⟨c, hc⟩ : ∃ c, caps i = c + 1 :=
        ⟨caps i - 1, by have := hcaps i; omega⟩
      have hcall : readerRead h (caps i) ([] : List Nat) =
          ([], [], some .eof, []) := by
        rw [hc]
        exact readerReadGo_nil h 0 c
      simp only [readerRun, hcall]
    case inr =>
      by_cases hne : u = []
      · subst hne
        obtain ⟨c, hc⟩ : ∃ c, caps i = c + 1 :=
          ⟨caps i - 1, by have := hcaps i; omega⟩
        have hcall : readerRead h (caps i) ([] : List Nat) =
            ([], [], some .eof, []) := by
          rw [hc]
          exact readerReadGo_nil h 0 c
        simp only [readerRun, hcall]
      · have hcall : readerRead h (caps i) u =
            (u.take (caps i), [], none, u.drop (caps i)) :=
          readerReadGo_text_all h (u.length + 1) (caps i) u hne hmf (by omega)
        have hmfd : markerFree (u.drop (caps i)) := by
          intro j hj
          rw [List.drop_drop]
          exact hmf (caps i + j) (by simp at hj; omega)
        have hlt : (u.drop (caps i)).length < M := by
          have h0 := hcaps i
          have hl0 : 0 < u.length := List.length_pos.mpr hne
          simp
          omega
        have hrec := ihM (u.drop (caps i)) (i + 1) hmfd hlt
        simp only [readerRun, hcall, hrec]
        simp

/-! ### Reader: handler failure and short handler reads -/

/-- If the handler fails on the blob that follows a marker-free text run
reached within the call's capacity, the `Read` call returns the text it
already produced together with the handler's own error; the remaining blob
bytes are not drained and nothing further is produced. -/
theorem readerReadGo_handler_fail (h : BlobHandler) :
    ∀ u fuel cap id body rest c,
      (∀ i < u.length,
        ((u ++ (WriteBlobHeader id body.length ++ (body ++ rest))).drop i).take 8 ≠
          BlobMarker) →
      id < 2 ^ 32 → body.length < 2 ^ 32 →
      h.fails id body = some c →
      u.length < cap →
      (u ++ (WriteBlobHeader id body.length ++ (body ++ rest))).length < fuel →
      readerReadGo h fuel cap (u ++ (WriteBlobHeader id body.length ++ (body ++ rest))) =
        (u, [.blobFail id body (min (h.reads id body) body.length) c],
          some (.handlerFail c),
          (body ++ rest).drop (min (h.reads id body) body.length)) := by
  intro u
  induction u with
  | nil =>
    intro fuel cap id body rest c _ hid hsz hfail hcap hfuel
    obtain ⟨f, rfl⟩ : ∃ f, fuel = f + 1 := ⟨fuel - 1, by omega⟩
    obtain ⟨cc, rfl⟩ : ∃ cc, cap = cc + 1 := ⟨cap - 1, by omega⟩
    rw [List.nil_append]
    rw [readerReadGo_frame_step h f cc id body rest hid hsz, hfail]
  | cons b u1 ihu =>
    intro fuel cap id body rest c hwin hid hsz hfail hcap hfuel
    obtain ⟨f, rfl⟩ : ∃ f, fuel = f + 1 := ⟨fuel - 1, by omega⟩
    obtain ⟨cc, rfl⟩ : ∃ cc, cap = cc + 1 := ⟨cap - 1, by omega⟩
    rw [List.cons_append]
    have hlen : ¬ (b :: (u1 ++ (WriteBlobHeader id body.length ++ (body ++ rest)))).length < 8 := by
      simp [WriteBlobHeader, BlobMarker, putUint32le]
      omega
    have hmk : (b :: (u1 ++ (WriteBlobHeader id body.length ++ (body ++ rest)))).take 8 ≠
        BlobMarker := by
      have := hwin 0 (by simp)
      simpa using this
    rw [readerReadGo_text_step h f cc b _ hlen hmk]
    have hwin1 : ∀ i < u1.length,
        ((u1 ++ (WriteBlobHeader id body.length ++ (body ++ rest))).drop i).take 8 ≠
          BlobMarker := by
      intro i hi
      have := hwin (i + 1) (by simp; omega)
      simpa using this
    rw [ihu f cc id body rest c hwin1 hid hsz hfail (by simp at hcap; omega)
      (by simp at hfuel ⊢; omega)]

/-- Handler failure, stated for the canonical `Read` call. -/
theorem readerRead_handler_fail (h : BlobHandler) (u : List Nat) (cap id : Nat)
    (body rest : List Nat) (c : Nat)
    (hwin : ∀ i < u.length,
      ((u ++ (WriteBlobHeader id body.length ++ (body ++ rest))).drop i).take 8 ≠
        BlobMarker)
    (hid : id < 2 ^ 32) (hsz : body.length < 2 ^ 32)
    (hfail : h.fails id body = some c) (hcap : u.length < cap) :
    readerRead h cap (u ++ (WriteBlobHeader id body.length ++ (body ++ rest))) =
      (u, [.blobFail id body (min (h.reads id body) body.length) c],
        some (.handlerFail c),
        (body ++ rest).drop (min (h.reads id body) body.length)) :=
  readerReadGo_handler_fail h u _ cap id body rest c hwin hid hsz hfail hcap
    (by omega)

/-- A successful handler that reads only part of the bounded view: the
frame is fully consumed anyway (the framing layer drains the rest) and the
call continues on the bytes after the blob. -/
theorem readerRead_frame (h : BlobHandler) (cap id : Nat) (body rest : List Nat)
    (hid : id < 2 ^ 32) (hsz : body.length < 2 ^ 32)
    (hnf : h.fails id body = none) (hcap : 0 < cap) :
    readerRead h cap (WriteBlobHeader id body.length ++ (body ++ rest)) =
      ((readerRead h cap rest).1,
        .blob id body (min (h.reads id body) body.length) ::
          (readerRead h cap rest).2.1,
        (readerRead h cap rest).2.2.1, (readerRead h cap rest).2.2.2) := by
  obtain ⟨cc, rfl⟩ : ∃ cc, cap = cc + 1 := ⟨cap - 1, by omega⟩
  set s := WriteBlobHeader id body.length ++ (body ++ rest) with hs
  have hfs : readerRead h (cc + 1) s = readerReadGo h (s.length + 1) (cc + 1) s := rfl
  obtain ⟨f, hf⟩ : ∃ f, s.length + 1 = f + 1 := ⟨s.length, rfl⟩
  rw [hfs, hf, readerReadGo_frame_step h f cc id body rest hid hsz, hnf]
  have hrw : readerReadGo h f (cc + 1) rest = readerRead h (cc + 1) rest := by
    apply readerReadGo_eq_readerRead
    have : rest.length < s.length := by
      rw [hs]
      simp [WriteBlobHeader, BlobMarker, putUint32le]
      omega
    omega
  rw [hrw]

/-! ### Reader: conservation across a whole run -/

theorem readerRun_conserve (h : BlobHandler) (caps : Nat → Nat) :
    ∀ M i s t evs e s', readerRun h caps M i s = (t, evs, e, s') →
      t.length + (evs.map evCost).sum + s'.length = s.length := by
  intro M
  induction M with
  | zero =>
    intro i s t evs e s' heq
    simp only [readerRun, Prod.mk.injEq] at heq
    obtain ⟨h1, h2, h3, h4⟩ := heq
    subst h1; subst h2; subst h4
    simp
  | succ M ihM =>
    intro i s t evs e s' heq
    rcases hcall : readerRead h (caps i) s with ⟨t0, evs0, e0, s0⟩
    have hc0 := readerReadGo_conserve h (s.length + 1) (caps i) s t0 evs0 e0 s0 hcall
    match e0 with
    | some .eof =>
      simp only [readerRun, hcall, Prod.mk.injEq] at heq
      obtain ⟨h1, h2, h3, h4⟩ := heq
      subst h1; subst h2; subst h4
      exact hc0
    | some .unexpectedEOF =>
      simp only [readerRun, hcall, Prod.mk.injEq] at heq
      obtain ⟨h1, h2, h3, h4⟩ := heq
      subst h1; subst h2; subst h4
      exact hc0
    | some (.handlerFail c) =>
      simp only [readerRun, hcall, Prod.mk.injEq] at heq
      obtain ⟨h1, h2, h3, h4⟩ := heq
      subst h1; subst h2; subst h4
      exact hc0
    | some (.closeFail c) =>
      simp only [readerRun, hcall, Prod.mk.injEq] at heq
      obtain ⟨h1, h2, h3, h4⟩ := heq
      subst h1; subst h2; subst h4
      exact hc0
    | none =>
      rcases hrec : readerRun h caps M (i + 1) s0 with ⟨t1, evs1, e1, s1⟩
      have hc1 := ihM (i + 1) s0 t1 evs1 e1 s1 hrec
      simp only [readerRun, hcall, hrec, Prod.mk.injEq] at heq
      obtain ⟨h1, h2, h3, h4⟩ := heq
      subst h1; subst h2; subst h4
      simp
      omega

/-! ### The multiplexing Writer

`Writer.Write` accepts arbitrary byte ranges and routes text bytes to the
text sink and header+blob bytes to the binary sink, via a three-mode state
machine (`modeText`, `modeHeader`, `modeBinary`).  The sinks are in-memory
buffers, modelled by the `textOut`/`binOut` components of the state. -/

/-- Writer modes, mirroring `writerMode`. -/
inductive WMode where
  | text
  | header
  | binary
  deriving DecidableEq, Repr

/-- Rank used for the loop's fuel bound: each loop iteration either
consumes input or strictly decreases the rank. -/
def wrank : WMode → Nat
  | .header => 0
  | .text => 1
  | .binary => 2

/-- State of the mux `Writer`: the mode, the partial header buffer
(`header[:headerN]`), the current blob's declared size and the count of its
bytes already forwarded, and the bytes written so far to each sink. -/
structure WriterSt where
  mode : WMode
  hbuf : List Nat
  binSize : Nat
  binCount : Nat
  textOut : List Nat
  binOut : List Nat
  deriving DecidableEq, Repr

/-- The state `NewWriter` starts from. -/
def writerInit : WriterSt := ⟨.text, [], 0, 0, [], []⟩

/-- First index at which the marker occurs in `p` (`bytes.Index`), `none`
when absent. -/
def findMarker : List Nat → Option Nat
  | [] => none
  | b :: r =>
    if (b :: r).take 8 = BlobMarker then some 0
    else (findMarker r).map (· + 1)

/-- One `Writer.Write` call: the loop over the input `p`, with explicit
fuel (sufficient whenever `3 * p.length + wrank st.mode < fuel`).  Returns
the final state, the reported count `n` (input bytes, except that the
decode-failure branch also adds the flushed header bytes to it, as the
code does), and the decode error if one surfaced. -/
def writerWriteGo : Nat → WriterSt → List Nat → WriterSt × Nat × Option IOError
  | 0, st, _ => (st, 0, none)
  | fuel + 1, st, p =>
    if p.isEmpty then (st, 0, none) else
    match st.mode with
    | .text =>
      match findMarker p with
      | none =>
        -- no marker: write all to the text sink
        ({ st with textOut := st.textOut ++ p }, p.length, none)
      | some idx =>
        -- write up to the marker to the text sink, switch to header mode
        let st1 :=
          if 0 < idx then { st with textOut := st.textOut ++ p.take idx } else st
        let st2 := { st1 with mode := .header, hbuf := [] }
        let r := writerWriteGo fuel st2 (p.drop idx)
        (r.1, idx + r.2.1, r.2.2)
    | .header =>
      let toRead := 16 - st.hbuf.length
      if toRead ≤ p.length then
        let full := st.hbuf ++ p.take toRead
        match (ReadBlobHeader full).1 with
        | .error e =>
          -- invalid header: back to text mode, flush `header[:headerN]`;
          -- the write's count is added to `n` on top of the `toRead`
          -- input bytes already counted (`n += nn` after `n += toRead`)
          ({ st with
              mode := .text
              textOut := st.textOut ++ full.take st.hbuf.length },
            toRead + (full.take st.hbuf.length).length, some e)
        | .ok (_, size) =>
          -- write the whole 16-byte header to the binary sink
          let st1 := { st with
            mode := .binary
            binSize := size
            binCount := 0
            binOut := st.binOut ++ full }
          let r := writerWriteGo fuel st1 (p.drop toRead)
          (r.1, toRead + r.2.1, r.2.2)
      else
        ({ st with hbuf := st.hbuf ++ p }, p.length, none)
    | .binary =>
      let remaining := st.binSize - st.binCount
      if remaining = 0 then
        writerWriteGo fuel { st with mode := .text } p
      else
        let w := min p.length remaining
        let st1 := { st with
          binOut := st.binOut ++ p.take w
          binCount := st.binCount + w }
        let r := writerWriteGo fuel st1 (p.drop w)
        (r.1, w + r.2.1, r.2.2)

/-- One `Writer.Write` call (canonical fuel). -/
def writerWrite (st : WriterSt) (p : List Nat) : WriterSt × Nat × Option IOError :=
  writerWriteGo (3 * p.length + 3) st p

/-- A sequence of `Writer.Write` calls, as a caller loop that stops on the
first error.  Returns the final state, the reported counts, and the first
error if any. -/
def runWriter : WriterSt → List (List Nat) → WriterSt × List Nat × Option IOError
  | st, [] => (st, [], none)
  | st, c :: cs =>
    match writerWrite st c with
    | (st1, n, some e) => (st1, [n], some e)
    | (st1, n, none) =>
      let r := runWriter st1 cs
      (r.1, n :: r.2.1, r.2.2)

/-- Close events, in the order `Writer.Close` attempts them. -/
inductive CloseEv where
  | closeText
  | closeBinary
  deriving DecidableEq, Repr

/-- `Writer.Close`: closes the text sink when it is an `io.Closer` and
returns its error at once if it fails; then closes the binary sink when it
is an `io.Closer`, returning its result.  A sink's close behaviour is
`none` when it does not support closing, `some r` when closing it yields
`r`.  The writer state is taken (and ignored) to reflect that `Close` does
not inspect the mode. -/
def writerClose (st : WriterSt) (textClose binaryClose : Option (Option IOError)) :
    List CloseEv × Option IOError :=
  match textClose with
  | some (some e) => ([.closeText], some e)
  | some none =>
    match binaryClose with
    | some r => ([.closeText, .closeBinary], r)
    | none => ([.closeText], none)
  | none =>
    match binaryClose with
    | some r => ([.closeBinary], r)
    | none => ([], none)

/-! ### findMarker (bytes.Index) characterisation -/

theorem findMarker_of_marker_head (u : List Nat) (h : u.take 8 = BlobMarker) :
    findMarker u = some 0 := by
  rcases u with _ | ⟨b, r⟩
  · exact absurd h (by simp [BlobMarker])
  · unfold findMarker
    rw [if_pos h]

theorem findMarker_cons_of_ne (b : Nat) (r : List Nat)
    (h : (b :: r).take 8 ≠ BlobMarker) :
    findMarker (b :: r) = (findMarker r).map (· + 1) := by
  unfold findMarker
  rw [if_neg h]
  cases r <;> rfl

theorem findMarker_none_of_markerFree (u : List Nat) (h : markerFree u) :
    findMarker u = none := by
  induction u with
  | nil => rfl
  | cons b r ih =>
    rw [findMarker_cons_of_ne b r (by have := h 0 (by simp); simpa using this)]
    rw [ih (fun i hi => by have := h (i + 1) (by simp; omega); simpa using this)]
    rfl

theorem findMarker_append_of_left_free (u v : List Nat)
    (h : ∀ i < u.length, ((u ++ v).drop i).take 8 ≠ BlobMarker) :
    findMarker (u ++ v) = (findMarker v).map (u.length + ·) := by
  induction u with
  | nil =>
    simp only [List.nil_append, List.length_nil]
    cases findMarker v <;> simp
  | cons b u1 ih =>
    rw [List.cons_append,
      findMarker_cons_of_ne b (u1 ++ v) (by have := h 0 (by simp); simpa using this)]
    rw [ih (fun i hi => by have := h (i + 1) (by simp; omega); simpa using this)]
    cases findMarker v with
    | none => rfl
    | some q =>
      simp
      omega

/-! ### Writer: tail positions in an encoded stream

A `WTail` describes a position in the wire encoding of a segment list:
at a segment boundary, inside a frame's 16-byte marker+header, or inside a
blob body.  `advTop`/`advT` advance a tail by `m` bytes, also returning the
text-sink and binary-sink bytes the `Writer` emits while crossing them. -/

inductive WTail where
  | atTop (L : List Seg)
  | inHeader (id : Nat) (body : List Nat) (hn : Nat) (L : List Seg)
  | inBody (id : Nat) (body : List Nat) (done : Nat) (L : List Seg)
  deriving DecidableEq, Repr

/-- The remaining bytes of the stream, seen from a tail position. -/
def streamOfT : WTail → List Nat
  | .atTop L => encodeSegs L
  | .inHeader id body hn L =>
    (WriteBlobHeader id body.length).drop hn ++ (body ++ encodeSegs L)
  | .inBody id body done L => body.drop done ++ encodeSegs L

/-- Advance a top-of-segment tail by `m` bytes. -/
def advTop : List Seg → Nat → WTail × List Nat × List Nat
  | [], _ => (.atTop [], [], [])
  | .text bs :: r, m =>
    if m < bs.length then (.atTop (.text (bs.drop m) :: r), bs.take m, [])
    else
      let x := advTop r (m - bs.length)
      (x.1, bs ++ x.2.1, x.2.2)
  | .blob id body :: r, m =>
    if m = 0 then (.atTop (.blob id body :: r), [], [])
    else if m < 16 then (.inHeader id body m r, [], [])
    else if m < 16 + body.length then
      (.inBody id body (m - 16) r, [],
        (WriteBlobHeader id body.length ++ body).take m)
    else if m = 16 + body.length then
      (.atTop r, [], WriteBlobHeader id body.length ++ body)
    else
      let x := advTop r (m - (16 + body.length))
      (x.1, x.2.1, WriteBlobHeader id body.length ++ body ++ x.2.2)

/-- Advance any tail by `m` bytes. -/
def advT : WTail → Nat → WTail × List Nat × List Nat
  | .atTop L, m => advTop L m
  | .inHeader id body hn L, m =>
    let hr := 16 - hn
    if m < hr then (.inHeader id body (hn + m) L, [], [])
    else if m < hr + body.length then
      (.inBody id body (m - hr) L, [],
        WriteBlobHeader id body.length ++ body.take (m - hr))
    else if m = hr + body.length then
      (.atTop L, [], WriteBlobHeader id body.length ++ body)
    else
      let x := advTop L (m - (hr + body.length))
      (x.1, x.2.1, WriteBlobHeader id body.length ++ body ++ x.2.2)
  | .inBody id body done L, m =>
    let rem := body.length - done
    if m < rem then (.inBody id body (done + m) L, [], (body.drop done).take m)
    else if m = rem then (.atTop L, [], body.drop done)
    else
      let x := advTop L (m - rem)
      (x.1, x.2.1, body.drop done ++ x.2.2)

/-- A cut `m` bytes into the stream does not split an 8-byte marker. -/
def cutOKTop : List Seg → Nat → Prop
  | [], _ => True
  | .text bs :: r, m => if m ≤ bs.length then True else cutOKTop r (m - bs.length)
  | .blob _ body :: r, m =>
    (m = 0 ∨ 8 ≤ m) ∧
      (if m ≤ 16 + body.length then True else cutOKTop r (m - (16 + body.length)))

instance cutOKTopDec : (L : List Seg) → (m : Nat) → Decidable (cutOKTop L m)
  | [], _ => .isTrue trivial
  | .text bs :: r, m => by
    unfold cutOKTop
    have := cutOKTopDec r (m - bs.length)
    exact inferInstance
  | .blob _ body :: r, m => by
    unfold cutOKTop
    have := cutOKTopDec r (m - (16 + body.length))
    exact inferInstance

def cutOKT : WTail → Nat → Prop
  | .atTop L, m => cutOKTop L m
  | .inHeader _ body hn L, m =>
    if m ≤ (16 - hn) + body.length then True
    else cutOKTop L (m - ((16 - hn) + body.length))
  | .inBody _ body done L, m =>
    if m ≤ body.length - done then True
    else cutOKTop L (m - (body.length - done))

instance cutOKTDec : (T : WTail) → (m : Nat) → Decidable (cutOKT T m)
  | .atTop L, m => by unfold cutOKT; exact cutOKTopDec L m
  | .inHeader _ body hn L, m => by unfold cutOKT; exact inferInstance
  | .inBody _ body done L, m => by unfold cutOKT; exact inferInstance

/-- Simulation between a `Writer` state and a tail position: at a segment
boundary the writer is in text mode, in binary mode with nothing left of
the current blob, or has just switched to header mode with an empty buffer
in front of a frame; mid-header it buffers the header's first `hn` bytes;
mid-body it is in binary mode with the body's remainder outstanding. -/
def WSim (st : WriterSt) : WTail → Prop
  | .atTop L =>
    st.mode = .text ∨ (st.mode = .binary ∧ st.binSize - st.binCount = 0) ∨
      (st.mode = .header ∧ st.hbuf = [] ∧
        ∃ id body r, L = .blob id body :: r)
  | .inHeader id body hn _ =>
    st.mode = .header ∧ st.hbuf = (WriteBlobHeader id body.length).take hn ∧
      8 ≤ hn ∧ hn < 16
  | .inBody _ body done _ =>
    st.mode = .binary ∧ st.binSize - st.binCount = body.length - done

/-- Safety, well-formedness, and normal form carried to tails. -/
def safeT : WTail → Prop
  | .atTop L => safeSegs L
  | .inHeader _ _ _ L => safeSegs L
  | .inBody _ _ _ L => safeSegs L

def wfT : WTail → Prop
  | .atTop L => wfSegs L
  | .inHeader id body _ L => id < 2 ^ 32 ∧ body.length < 2 ^ 32 ∧ wfSegs L
  | .inBody id body _ L => id < 2 ^ 32 ∧ body.length < 2 ^ 32 ∧ wfSegs L

/-- Head of the list is not a text segment. -/
def headNotText : List Seg → Prop
  | .text _ :: _ => False
  | _ => True

/-- Normal form for segment lists: no empty text segment, no two adjacent
text segments. -/
def normP : List Seg → Prop
  | [] => True
  | .text bs :: r => bs ≠ [] ∧ headNotText r ∧ normP r
  | .blob _ _ :: r => normP r

def normT : WTail → Prop
  | .atTop L => normP L
  | .inHeader _ _ _ L => normP L
  | .inBody _ _ _ L => normP L

/-- Text the writer still has to route to the text sink from a tail on. -/
def textRemOf : WTail → List Nat
  | .atTop L => textOf L
  | .inHeader _ _ _ L => textOf L
  | .inBody _ _ _ L => textOf L

/-- Binary bytes the writer still has to route to the binary sink from a
tail on (a partially buffered header is written in full when complete). -/
def binRemOf : WTail → List Nat
  | .atTop L => framesOf L
  | .inHeader id body _ L => WriteBlobHeader id body.length ++ body ++ framesOf L
  | .inBody _ body done L => body.drop done ++ framesOf L

theorem encodeSegs_blob_cons (id : Nat) (body : List Nat) (r : List Seg) :
    encodeSegs (.blob id body :: r) =
      WriteBlobHeader id body.length ++ (body ++ encodeSegs r) := by
  simp [encodeSegs, encodeSeg]

theorem encodeSegs_text_cons (bs : List Nat) (r : List Seg) :
    encodeSegs (.text bs :: r) = bs ++ encodeSegs r := by
  simp [encodeSegs, encodeSeg]

/-- Advancing a tail drops exactly that many bytes from the stream. -/
theorem advTop_stream : ∀ (L : List Seg) (m : Nat),
    streamOfT (advTop L m).1 = (encodeSegs L).drop m := by
  intro L
  induction L with
  | nil => intro m; simp [advTop, streamOfT, encodeSegs]
  | cons g r ih =>
    intro m
    cases g with
    | text bs =>
      rw [encodeSegs_text_cons]
      by_cases hm : m < bs.length
      · simp only [advTop, if_pos hm, streamOfT, encodeSegs_text_cons]
        rw [List.drop_append_eq_append_drop,
          show m - bs.length = 0 by omega]
        simp
      · simp only [advTop, if_neg hm]
        rw [ih (m - bs.length), List.drop_append_eq_append_drop,
          show bs.drop m = [] from
            List.drop_eq_nil_of_le (by omega)]
        simp
    | blob id body =>
      rw [encodeSegs_blob_cons]
      have hW : (WriteBlobHeader id body.length).length = 16 :=
        writeBlobHeader_length id body.length
      by_cases h0 : m = 0
      · simp [advTop, h0, streamOfT, encodeSegs_blob_cons]
      · by_cases h16 : m < 16
        · simp only [advTop, if_neg h0, if_pos h16, streamOfT]
          rw [List.drop_append_eq_append_drop, hW,
            show m - 16 = 0 by omega]
          simp
        · by_cases hfl : m < 16 + body.length
          · simp only [advTop, if_neg h0, if_neg h16, if_pos hfl, streamOfT]
            rw [List.drop_append_eq_append_drop, hW,
              show (WriteBlobHeader id body.length).drop m = [] from
                List.drop_eq_nil_of_le (by omega),
              List.drop_append_eq_append_drop,
              show m - 16 - body.length = 0 by omega]
            simp
          · by_cases hfe : m = 16 + body.length
            · simp only [advTop, if_neg h0, if_neg h16, if_neg hfl, if_pos hfe,
                streamOfT]
              rw [List.drop_append_eq_append_drop, hW,
                show (WriteBlobHeader id body.length).drop m = [] from
                  List.drop_eq_nil_of_le (by omega),
                List.drop_append_eq_append_drop,
                show body.drop (m - 16) = [] from
                  List.drop_eq_nil_of_le (by omega),
                show m - 16 - body.length = 0 by omega]
              simp
            · simp only [advTop, if_neg h0, if_neg h16, if_neg hfl, if_neg hfe]
              rw [ih (m - (16 + body.length)), List.drop_append_eq_append_drop, hW,
                show (WriteBlobHeader id body.length).drop m = [] from
                  List.drop_eq_nil_of_le (by omega),
                List.drop_append_eq_append_drop,
                show body.drop (m - 16) = [] from
                  List.drop_eq_nil_of_le (by omega),
                show m - 16 - body.length = m - (16 + body.length) by omega]
              simp

theorem advT_stream (T : WTail) (m : Nat) :
    streamOfT (advT T m).1 = (streamOfT T).drop m := by
  cases T with
  | atTop L => exact advTop_stream L m
  | inHeader id body hn L =>
    have hW : (WriteBlobHeader id body.length).length = 16 :=
      writeBlobHeader_length id body.length
    have hWd : ((WriteBlobHeader id body.length).drop hn).length = 16 - hn := by
      simp [hW]
    simp only [advT]
    by_cases h1 : m < 16 - hn
    · simp only [if_pos h1, streamOfT]
      rw [List.drop_append_eq_append_drop, hWd,
        show m - (16 - hn) = 0 by omega, List.drop_drop,
        show hn + m = m + hn by omega]
      simp
    · by_cases h2 : m < (16 - hn) + body.length
      · simp only [if_neg h1, if_pos h2, streamOfT]
        rw [List.drop_append_eq_append_drop,
          show ((WriteBlobHeader id body.length).drop hn).drop m = [] from
            List.drop_eq_nil_of_le (by omega),
          List.drop_append_eq_append_drop, hWd,
          show m - (16 - hn) - body.length = 0 by omega]
        simp
      · by_cases h3 : m = (16 - hn) + body.length
        · simp only [if_neg h1, if_neg h2, if_pos h3, streamOfT]
          rw [List.drop_append_eq_append_drop,
            show ((WriteBlobHeader id body.length).drop hn).drop m = [] from
              List.drop_eq_nil_of_le (by omega),
            List.drop_append_eq_append_drop, hWd,
            show body.drop (m - (16 - hn)) = [] from
              List.drop_eq_nil_of_le (by omega),
            show m - (16 - hn) - body.length = 0 by omega]
          simp
        · simp only [if_neg h1, if_neg h2, if_neg h3]
          rw [advTop_stream]
          simp only [streamOfT]
          rw [List.drop_append_eq_append_drop,
            show ((WriteBlobHeader id body.length).drop hn).drop m = [] from
              List.drop_eq_nil_of_le (by omega),
            List.drop_append_eq_append_drop, hWd,
            show body.drop (m - (16 - hn)) = [] from
              List.drop_eq_nil_of_le (by omega),
            show m - (16 - hn) - body.length = m - ((16 - hn) + body.length)
              by omega]
          simp
  | inBody id body done L =>
    have hbd : (body.drop done).length = body.length - done := by simp
    simp only [advT]
    by_cases h1 : m < body.length - done
    · simp only [if_pos h1, streamOfT]
      rw [List.drop_append_eq_append_drop, hbd,
        show m - (body.length - done) = 0 by omega, List.drop_drop,
        show done + m = m + done by omega]
      simp
    · by_cases h2 : m = body.length - done
      · simp only [if_neg h1, if_pos h2, streamOfT]
        rw [List.drop_append_eq_append_drop, hbd,
          show (body.drop done).drop m = [] from
            List.drop_eq_nil_of_le (by omega),
          show m - (body.length - done) = 0 by omega]
        simp
      · simp only [if_neg h1, if_neg h2]
        rw [advTop_stream]
        simp only [streamOfT]
        rw [List.drop_append_eq_append_drop, hbd,
          show (body.drop done).drop m = [] from
            List.drop_eq_nil_of_le (by omega),
          show m - (body.length - done) = m - (body.length - done) from rfl]
        simp

/-- The sink bytes emitted while advancing, together with what remains to
be emitted from the new tail, are exactly what remained before. -/
theorem advTop_telescope : ∀ (L : List Seg) (m : Nat),
    textOf L = (advTop L m).2.1 ++ textRemOf (advTop L m).1 ∧
    framesOf L = (advTop L m).2.2 ++ binRemOf (advTop L m).1 := by
  intro L
  induction L with
  | nil => intro m; simp [advTop, textRemOf, binRemOf, textOf, framesOf]
  | cons g r ih =>
    intro m
    cases g with
    | text bs =>
      by_cases hm : m < bs.length
      · simp only [advTop, if_pos hm, textRemOf, binRemOf, textOf, framesOf]
        refine ⟨?_, by simp⟩
        rw [← List.append_assoc, List.take_append_drop]
      · obtain ⟨h1, h2⟩ := ih (m - bs.length)
        simp only [advTop, if_neg hm, textOf, framesOf]
        refine ⟨?_, h2⟩
        rw [h1]
        simp
    | blob id body =>
      by_cases h0 : m = 0
      · simp [advTop, h0, textRemOf, binRemOf, textOf, framesOf]
      · by_cases h16 : m < 16
        · simp only [advTop, if_neg h0, if_pos h16, textRemOf, binRemOf,
            textOf, framesOf]
          simp [List.append_assoc]
        · by_cases hfl : m < 16 + body.length
          · simp only [advTop, if_neg h0, if_neg h16, if_pos hfl, textRemOf,
              binRemOf, textOf, framesOf]
            refine ⟨rfl, ?_⟩
            rw [List.take_append_eq_append_take,
              show (WriteBlobHeader id body.length).take m =
                WriteBlobHeader id body.length from
                List.take_of_length_le (by rw [writeBlobHeader_length]; omega),
              writeBlobHeader_length,
              List.append_assoc, List.append_assoc,
              ← List.append_assoc (body.take (m - 16)),
              List.take_append_drop]
          · by_cases hfe : m = 16 + body.length
            · simp only [advTop, if_neg h0, if_neg h16, if_neg hfl, if_pos hfe,
                textRemOf, binRemOf, textOf, framesOf]
              simp [List.append_assoc]
            · obtain ⟨h1, h2⟩ := ih (m - (16 + body.length))
              simp only [advTop, if_neg h0, if_neg h16, if_neg hfl, if_neg hfe,
                textOf, framesOf]
              refine ⟨h1, ?_⟩
              rw [h2]
              simp [List.append_assoc]

theorem advT_telescope (T : WTail) (m : Nat) :
    textRemOf T = (advT T m).2.1 ++ textRemOf (advT T m).1 ∧
    binRemOf T = (advT T m).2.2 ++ binRemOf (advT T m).1 := by
  cases T with
  | atTop L => exact advTop_telescope L m
  | inHeader id body hn L =>
    simp only [advT]
    by_cases h1 : m < 16 - hn
    · simp only [if_pos h1, textRemOf, binRemOf]
      simp
    · by_cases h2 : m < (16 - hn) + body.length
      · simp only [if_neg h1, if_pos h2, textRemOf, binRemOf]
        refine ⟨by simp, ?_⟩
        conv_lhs => rw [← List.take_append_drop (m - (16 - hn)) body]
        simp [List.append_assoc]
        rw [← List.append_assoc, List.take_append_drop]
      · by_cases h3 : m = (16 - hn) + body.length
        · simp only [if_neg h1, if_neg h2, if_pos h3, textRemOf, binRemOf]
          simp [List.append_assoc]
        · obtain ⟨ha, hb⟩ := advTop_telescope L (m - ((16 - hn) + body.length))
          simp only [if_neg h1, if_neg h2, if_neg h3]
          refine ⟨ha, ?_⟩
          show WriteBlobHeader id body.length ++ body ++ framesOf L = _
          rw [hb]
          simp [List.append_assoc]
  | inBody id body done L =>
    simp only [advT]
    by_cases h1 : m < body.length - done
    · simp only [if_pos h1, textRemOf, binRemOf]
      refine ⟨by simp, ?_⟩
      rw [show body.drop (done + m) = (body.drop done).drop m from by
          rw [List.drop_drop],
        ← List.append_assoc, List.take_append_drop]
    · by_cases h2 : m = body.length - done
      · simp only [if_neg h1, if_pos h2, textRemOf, binRemOf]
        simp
      · obtain ⟨ha, hb⟩ := advTop_telescope L (m - (body.length - done))
        simp only [if_neg h1, if_neg h2]
        refine ⟨ha, ?_⟩
        show body.drop done ++ framesOf L = _
        rw [hb]
        simp [List.append_assoc]

theorem safe_text_drop (bs : List Nat) (r : List Seg) (m : Nat)
    (h : safeSegs (.text bs :: r)) : safeSegs (.text (bs.drop m) :: r) := by
  obtain ⟨hwin, hsr⟩ := h
  refine ⟨?_, hsr⟩
  intro i hi
  have := hwin (m + i) (by simp at hi; omega)
  rw [List.drop_drop]
  simpa [Nat.add_comm] using this

/-- Advancing preserves marker-safety, well-formedness and normal form. -/
theorem advTop_inv : ∀ (L : List Seg) (m : Nat), safeSegs L → wfSegs L →
    normP L →
    safeT (advTop L m).1 ∧ wfT (advTop L m).1 ∧ normT (advTop L m).1 := by
  intro L
  induction L with
  | nil => intro m _ _ _; exact ⟨trivial, trivial, trivial⟩
  | cons g r ih =>
    intro m hsafe hwf hnorm
    cases g with
    | text bs =>
      by_cases hm : m < bs.length
      · simp only [advTop, if_pos hm]
        obtain ⟨hne, hht, hnr⟩ := hnorm
        exact ⟨safe_text_drop bs r m hsafe, hwf,
          ⟨by intro hc; have := congrArg List.length hc; simp at this; omega,
            hht, hnr⟩⟩
      · simp only [advTop, if_neg hm]
        exact ih (m - bs.length) hsafe.2 hwf hnorm.2.2
    | blob id body =>
      obtain ⟨hid, hsz, hwr⟩ := hwf
      have hsr : safeSegs r := hsafe
      have hnr : normP r := hnorm
      by_cases h0 : m = 0
      · simp only [advTop, if_pos h0]
        exact ⟨hsafe, ⟨hid, hsz, hwr⟩, hnorm⟩
      · by_cases h16 : m < 16
        · simp only [advTop, if_neg h0, if_pos h16]
          exact ⟨hsr, ⟨hid, hsz, hwr⟩, hnr⟩
        · by_cases hfl : m < 16 + body.length
          · simp only [advTop, if_neg h0, if_neg h16, if_pos hfl]
            exact ⟨hsr, ⟨hid, hsz, hwr⟩, hnr⟩
          · by_cases hfe : m = 16 + body.length
            · simp only [advTop, if_neg h0, if_neg h16, if_neg hfl, if_pos hfe]
              exact ⟨hsr, hwr, hnr⟩
            · simp only [advTop, if_neg h0, if_neg h16, if_neg hfl, if_neg hfe]
              exact ih (m - (16 + body.length)) hsr hwr hnr

theorem advT_inv (T : WTail) (m : Nat) (hsafe : safeT T) (hwf : wfT T)
    (hnorm : normT T) :
    safeT (advT T m).1 ∧ wfT (advT T m).1 ∧ normT (advT T m).1 := by
  cases T with
  | atTop L => exact advTop_inv L m hsafe hwf hnorm
  | inHeader id body hn L =>
    obtain ⟨hid, hsz, hwr⟩ := hwf
    simp only [advT]
    by_cases h1 : m < 16 - hn
    · simp only [if_pos h1]
      exact ⟨hsafe, ⟨hid, hsz, hwr⟩, hnorm⟩
    · by_cases h2 : m < (16 - hn) + body.length
      · simp only [if_neg h1, if_pos h2]
        exact ⟨hsafe, ⟨hid, hsz, hwr⟩, hnorm⟩
      · by_cases h3 : m = (16 - hn) + body.length
        · simp only [if_neg h1, if_neg h2, if_pos h3]
          exact ⟨hsafe, hwr, hnorm⟩
        · simp only [if_neg h1, if_neg h2, if_neg h3]
          exact advTop_inv L (m - ((16 - hn) + body.length)) hsafe hwr hnorm
  | inBody id body done L =>
    obtain ⟨hid, hsz, hwr⟩ := hwf
    simp only [advT]
    by_cases h1 : m < body.length - done
    · simp only [if_pos h1]
      exact ⟨hsafe, ⟨hid, hsz, hwr⟩, hnorm⟩
    · by_cases h2 : m = body.length - done
      · simp only [if_neg h1, if_pos h2]
        exact ⟨hsafe, hwr, hnorm⟩
      · simp only [if_neg h1, if_neg h2]
        exact advTop_inv L (m - (body.length - done)) hsafe hwr hnorm

/-- Decoding an exactly-16-byte well-formed header succeeds. -/
theorem readBlobHeader_exact (id size : Nat) (hid : id < 2 ^ 32)
    (hsize : size < 2 ^ 32) :
    ReadBlobHeader (WriteBlobHeader id size) = (.ok (id, size), []) := by
  have := readBlobHeader_of_writeBlobHeader id size [] hid hsize
  simpa using this

/-- Crossing a whole frame head: advancing a blob-headed segment list by
`m ≥ 16` bytes is the 16-byte header (written in full to the binary sink)
followed by advancing from the start of the body. -/
theorem advTop_blob_combine (id : Nat) (body : List Nat) (r : List Seg)
    (m : Nat) (h16 : 16 ≤ m) :
    advTop (.blob id body :: r) m =
      ((advT (.inBody id body 0 r) (m - 16)).1,
        (advT (.inBody id body 0 r) (m - 16)).2.1,
        WriteBlobHeader id body.length ++ (advT (.inBody id body 0 r) (m - 16)).2.2) := by
  have hW : (WriteBlobHeader id body.length).length = 16 :=
    writeBlobHeader_length id body.length
  by_cases h1 : m - 16 < body.length - 0
  · have hfl : m < 16 + body.length := by omega
    simp only [advTop, if_neg (show ¬ m = 0 by omega),
      if_neg (show ¬ m < 16 by omega), if_pos hfl, advT, if_pos h1]
    refine congrArg₂ _ ?_ (congrArg₂ _ rfl ?_)
    · rw [show (0 : Nat) + (m - 16) = m - 16 by omega]
    · rw [List.take_append_eq_append_take,
        List.take_of_length_le (by omega), hW, List.drop_zero]
  · by_cases h2 : m - 16 = body.length - 0
    · have hfe : m = 16 + body.length := by omega
      simp only [advTop, if_neg (show ¬ m = 0 by omega),
        if_neg (show ¬ m < 16 by omega),
        if_neg (show ¬ m < 16 + body.length by omega), if_pos hfe, advT,
        if_neg h1, if_pos h2]
      rw [List.drop_zero]
    · have hgt : ¬ m = 16 + body.length := by omega
      have hfl : ¬ m < 16 + body.length := by omega
      simp only [advTop, if_neg (show ¬ m = 0 by omega),
        if_neg (show ¬ m < 16 by omega), if_neg hfl, if_neg hgt, advT,
        if_neg h1, if_neg h2]
      rw [show m - 16 - (body.length - 0) = m - (16 + body.length) by omega,
        List.drop_zero]
      simp [List.append_assoc]

/-- Completing a partially buffered header: advancing a mid-header tail by
`m ≥ 16 - hn` bytes is the full 16-byte header followed by advancing from
the start of the body. -/
theorem advT_inHeader_combine (id : Nat) (body : List Nat) (L : List Seg)
    (hn m : Nat) (hge : 16 - hn ≤ m) :
    advT (.inHeader id body hn L) m =
      ((advT (.inBody id body 0 L) (m - (16 - hn))).1,
        (advT (.inBody id body 0 L) (m - (16 - hn))).2.1,
        WriteBlobHeader id body.length ++
          (advT (.inBody id body 0 L) (m - (16 - hn))).2.2) := by
  by_cases h1 : m - (16 - hn) < body.length - 0
  · have h2 : m < (16 - hn) + body.length := by omega
    simp only [advT, if_neg (show ¬ m < 16 - hn by omega), if_pos h2, if_pos h1]
    refine congrArg₂ _ ?_ (congrArg₂ _ rfl ?_)
    · rw [show (0 : Nat) + (m - (16 - hn)) = m - (16 - hn) by omega]
    · rw [List.drop_zero]
  · by_cases h2 : m - (16 - hn) = body.length - 0
    · have h3 : m = (16 - hn) + body.length := by omega
      simp only [advT, if_neg (show ¬ m < 16 - hn by omega),
        if_neg (show ¬ m < (16 - hn) + body.length by omega), if_pos h3,
        if_neg h1, if_pos h2]
      rw [List.drop_zero]
    · simp only [advT, if_neg (show ¬ m < 16 - hn by omega),
        if_neg (show ¬ m < (16 - hn) + body.length by omega),
        if_neg (show ¬ m = (16 - hn) + body.length by omega),
        if_neg h1, if_neg h2]
      rw [show m - (16 - hn) - (body.length - 0) = m - ((16 - hn) + body.length)
        by omega, List.drop_zero]
      simp [List.append_assoc]

theorem take_of_marker_stream (W X : List Nat) (m : Nat) (hW : W.length = 16)
    (hm : m ≤ 16) : (W ++ X).take m = W.take m := by
  rw [List.take_append_eq_append_take, show m - W.length = 0 by omega]
  simp

/-! ### Writer: single-iteration step lemmas -/

theorem writerWriteGo_all_nil : ∀ (fuel : Nat) (st : WriterSt),
    writerWriteGo fuel st [] = (st, 0, none) := by
  intro fuel st
  cases fuel <;> rfl

theorem isEmpty_false_of_ne (p : List Nat) (h : p ≠ []) :
    ¬ (p.isEmpty = true) := by
  cases p with
  | nil => exact absurd rfl h
  | cons b r => simp [List.isEmpty]

theorem writerWriteGo_text_none (f : Nat) (st : WriterSt) (p : List Nat)
    (hm : st.mode = .text) (hne : p ≠ []) (hfm : findMarker p = none) :
    writerWriteGo (f + 1) st p =
      ({ st with textOut := st.textOut ++ p }, p.length, none) := by
  simp only [writerWriteGo, if_neg (isEmpty_false_of_ne p hne), hm, hfm]

theorem writerWriteGo_text_some (f : Nat) (st : WriterSt) (p : List Nat)
    (idx : Nat) (hm : st.mode = .text) (hne : p ≠ [])
    (hfm : findMarker p = some idx) :
    writerWriteGo (f + 1) st p =
      ((writerWriteGo f
          { (if 0 < idx then { st with textOut := st.textOut ++ p.take idx } else st) with mode := .header, hbuf := [] } (p.drop idx)).1,
        idx + (writerWriteGo f
          { (if 0 < idx then { st with textOut := st.textOut ++ p.take idx } else st) with mode := .header, hbuf := [] } (p.drop idx)).2.1,
        (writerWriteGo f
          { (if 0 < idx then { st with textOut := st.textOut ++ p.take idx } else st) with mode := .header, hbuf := [] } (p.drop idx)).2.2) := by
  simp only [writerWriteGo, if_neg (isEmpty_false_of_ne p hne), hm, hfm]

theorem writerWriteGo_header_fill (f : Nat) (st : WriterSt) (p : List Nat)
    (hm : st.mode = .header) (hne : p ≠ [])
    (hlt : p.length < 16 - st.hbuf.length) :
    writerWriteGo (f + 1) st p =
      ({ st with hbuf := st.hbuf ++ p }, p.length, none) := by
  simp only [writerWriteGo, if_neg (isEmpty_false_of_ne p hne), hm,
    if_neg (show ¬ (16 - st.hbuf.length ≤ p.length) by omega)]

theorem writerWriteGo_header_full (f : Nat) (st : WriterSt) (p : List Nat)
    (hm : st.mode = .header) (hne : p ≠ [])
    (hge : 16 - st.hbuf.length ≤ p.length) (id size : Nat)
    (hdec : (ReadBlobHeader (st.hbuf ++ p.take (16 - st.hbuf.length))).1 =
      .ok (id, size)) :
    writerWriteGo (f + 1) st p =
      ((writerWriteGo f
          { st with mode := .binary, binSize := size, binCount := 0, binOut := st.binOut ++ (st.hbuf ++ p.take (16 - st.hbuf.length)) }
          (p.drop (16 - st.hbuf.length))).1,
        (16 - st.hbuf.length) + (writerWriteGo f
          { st with mode := .binary, binSize := size, binCount := 0, binOut := st.binOut ++ (st.hbuf ++ p.take (16 - st.hbuf.length)) }
          (p.drop (16 - st.hbuf.length))).2.1,
        (writerWriteGo f
          { st with mode := .binary, binSize := size, binCount := 0, binOut := st.binOut ++ (st.hbuf ++ p.take (16 - st.hbuf.length)) }
          (p.drop (16 - st.hbuf.length))).2.2) := by
  simp only [writerWriteGo, if_neg (isEmpty_false_of_ne p hne), hm,
    if_pos hge, hdec]

theorem writerWriteGo_binary_zero (f : Nat) (st : WriterSt) (p : List Nat)
    (hm : st.mode = .binary) (hne : p ≠ [])
    (hz : st.binSize - st.binCount = 0) :
    writerWriteGo (f + 1) st p = writerWriteGo f { st with mode := .text } p := by
  simp only [writerWriteGo, if_neg (isEmpty_false_of_ne p hne), hm, hz]
  rw [if_pos trivial]

theorem writerWriteGo_binary_pos (f : Nat) (st : WriterSt) (p : List Nat)
    (hm : st.mode = .binary) (hne : p ≠ [])
    (hz : ¬ (st.binSize - st.binCount = 0)) :
    writerWriteGo (f + 1) st p =
      ((writerWriteGo f
          { st with binOut := st.binOut ++ p.take (min p.length (st.binSize - st.binCount)), binCount := st.binCount + min p.length (st.binSize - st.binCount) }
          (p.drop (min p.length (st.binSize - st.binCount)))).1,
        min p.length (st.binSize - st.binCount) + (writerWriteGo f
          { st with binOut := st.binOut ++ p.take (min p.length (st.binSize - st.binCount)), binCount := st.binCount + min p.length (st.binSize - st.binCount) }
          (p.drop (min p.length (st.binSize - st.binCount)))).2.1,
        (writerWriteGo f
          { st with binOut := st.binOut ++ p.take (min p.length (st.binSize - st.binCount)), binCount := st.binCount + min p.length (st.binSize - st.binCount) }
          (p.drop (min p.length (st.binSize - st.binCount)))).2.2) := by
  simp only [writerWriteGo, if_neg (isEmpty_false_of_ne p hne), hm,
    if_neg hz]

/-! ### Writer: helper lemmas for the simulation proof -/

theorem cutOKTop_zero : ∀ L : List Seg, cutOKTop L 0
  | [] => trivial
  | .text bs :: _ => by
    simp only [cutOKTop]
    rw [if_pos (Nat.zero_le _)]
    trivial
  | .blob _ body :: _ => by
    simp only [cutOKTop]
    exact ⟨Or.inl trivial, by rw [if_pos (Nat.zero_le _)]; trivial⟩

theorem take8_of_writeBlobHeader (id size : Nat) (x : List Nat) :
    (WriteBlobHeader id size ++ x).take 8 = BlobMarker := by
  have h : WriteBlobHeader id size ++ x =
      BlobMarker ++ (putUint32le id ++ (putUint32le size ++ x)) := by
    simp [WriteBlobHeader, List.append_assoc]
  rw [h]
  exact List.take_left' blobMarker_length

/-- Advancing by zero bytes produces no output and a tail the same state
simulates. -/
theorem sim_advT_zero (st : WriterSt) (T : WTail) (hsim : WSim st T)
    (hnorm : normT T) :
    WSim st (advT T 0).1 ∧ (advT T 0).2.1 = [] ∧ (advT T 0).2.2 = [] := by
  cases T with
  | atTop L =>
    cases L with
    | nil => exact ⟨hsim, rfl, rfl⟩
    | cons g r =>
      cases g with
      | text bs =>
        have hbs : bs ≠ [] := hnorm.1
        have h0 : 0 < bs.length := List.length_pos.mpr hbs
        refine ⟨?_, ?_, ?_⟩
        · simp only [advT, advTop, if_pos h0, List.drop_zero]
          exact hsim
        · simp [advT, advTop, if_pos h0]
        · simp [advT, advTop, if_pos h0]
      | blob id body =>
        exact ⟨hsim, rfl, rfl⟩
  | inHeader id body hn L =>
    have hh : hn < 16 := hsim.2.2.2
    have h0 : 0 < 16 - hn := by omega
    refine ⟨?_, ?_, ?_⟩
    · simp only [advT, if_pos h0]
      exact hsim
    · simp [advT, hh]
    · simp [advT, hh]
  | inBody id body done L =>
    by_cases hrem : 0 < body.length - done
    · have hd : done < body.length := by omega
      refine ⟨?_, ?_, ?_⟩
      · simp only [advT, if_pos hrem]
        exact hsim
      · simp [advT, hd]
      · simp [advT, hd]
    · have he0 : (0 : Nat) = body.length - done := by omega
      have hnd : ¬ done < body.length := by omega
      refine ⟨?_, ?_, ?_⟩
      · simp only [advT, if_neg hrem, if_pos he0]
        exact Or.inr (Or.inl ⟨hsim.1, by have := hsim.2; omega⟩)
      · simp [advT, hnd, ← he0]
      · simp only [advT, if_neg hrem, if_pos he0]
        exact List.drop_eq_nil_of_le (by omega)

/-- Any truncation of a safe text run is marker-free. -/
theorem markerFree_take_text (bs : List Nat) (r : List Seg)
    (hsafe : safeSegs (.text bs :: r)) (m : Nat) (hm : m ≤ bs.length) :
    markerFree (bs.take m) := by
  intro i hi
  rw [List.length_take] at hi
  have hib : i < bs.length := by omega
  by_cases h8 : 8 ≤ m - i
  · have hwin := hsafe.1 i hib
    rw [List.drop_take, List.take_take, show min 8 (m - i) = 8 by omega]
    intro hc
    apply hwin
    rw [List.take_append_eq_append_take,
      show 8 - (bs.drop i).length = 0 by rw [List.length_drop]; omega,
      List.take_zero, List.append_nil]
    exact hc
  · intro hc
    have hl := congrArg List.length hc
    simp [List.length_take, List.length_drop, BlobMarker] at hl
    omega

/-- No window starting inside a safe text run matches the marker, even when
the following encoded stream is truncated at an arbitrary point. -/
theorem text_windows_safe (bs : List Nat) (r : List Seg)
    (hsafe : safeSegs (.text bs :: r)) (k : Nat) :
    ∀ i, i < bs.length →
      ((bs ++ (encodeSegs r).take k).drop i).take 8 ≠ BlobMarker := by
  intro i hib
  have hwin := hsafe.1 i hib
  rw [List.drop_append_eq_append_drop, show i - bs.length = 0 by omega,
    List.drop_zero]
  by_cases hcase : 8 ≤ bs.length - i + k
  · intro hc
    apply hwin
    rw [List.take_append_eq_append_take] at hc ⊢
    rw [List.length_drop] at hc ⊢
    rw [List.take_take,
      show min (8 - (bs.length - i)) k = 8 - (bs.length - i) by omega] at hc
    exact hc
  · intro hc
    have hl := congrArg List.length hc
    simp [List.length_take, List.length_drop, List.length_append, BlobMarker] at hl
    omega

/-- Main writer simulation: on a marker-safe, well-formed, normalised
stream, a single `Write` call whose payload is a slice of the remaining
stream obeying the cut discipline consumes the payload fully, reports no
error, and routes text and binary bytes exactly as the tail advance
describes. -/
theorem writerWriteGo_sim :
    ∀ (fuel : Nat) (st : WriterSt) (T : WTail) (m : Nat),
    WSim st T → safeT T → wfT T → normT T → cutOKT T m →
    m ≤ (streamOfT T).length → 3 * m + wrank st.mode < fuel →
    ∃ st', writerWriteGo fuel st ((streamOfT T).take m) = (st', m, none) ∧
      WSim st' (advT T m).1 ∧
      st'.textOut = st.textOut ++ (advT T m).2.1 ∧
      st'.binOut = st.binOut ++ (advT T m).2.2 := by
  intro fuel
  induction fuel with
  | zero => intro st T m _ _ _ _ _ _ hfuel; omega
  | succ fuel ih =>
    intro st T m hsim hsafe hwf hnorm hcut hlen hfuel
    by_cases hm0 : m = 0
    · subst hm0
      obtain ⟨hw, h1, h2⟩ := sim_advT_zero st T hsim hnorm
      exact ⟨st, by rw [List.take_zero, writerWriteGo_all_nil], hw,
        by rw [h1, List.append_nil], by rw [h2, List.append_nil]⟩
    · have hplen : ((streamOfT T).take m).length = m := by
        rw [List.length_take]; omega
      have hpne : (streamOfT T).take m ≠ [] := by
        intro h
        rw [h] at hplen
        simp at hplen
        omega
      cases T with
      | atTop L =>
        rcases hsim with hmode | ⟨hmode, hrm⟩ | ⟨hmode, hhb, id0, body0, r0, hL⟩
        · -- text mode
          cases L with
          | nil =>
            exfalso
            simp only [streamOfT, encodeSegs, List.length_nil] at hlen
            omega
          | cons g r =>
            cases g with
            | text bs =>
              have hnorm' : normP (.text bs :: r) := hnorm
              obtain ⟨hbs, hht, hnr⟩ := hnorm'
              have hbl : 0 < bs.length := List.length_pos.mpr hbs
              have hsafe' : safeSegs (.text bs :: r) := hsafe
              obtain ⟨hwinsafe, hsr⟩ := hsafe'
              have hlen' : m ≤ bs.length + (encodeSegs r).length := by
                have h := hlen
                simp only [streamOfT] at h
                rw [encodeSegs_text_cons, List.length_append] at h
                exact h
              by_cases hmbs : m ≤ bs.length
              · -- the slice stays inside the text run
                have hptake : (streamOfT (.atTop (.text bs :: r))).take m = bs.take m := by
                  simp only [streamOfT]
                  rw [encodeSegs_text_cons, List.take_append_eq_append_take,
                    show m - bs.length = 0 by omega, List.take_zero, List.append_nil]
                have hfm : findMarker ((streamOfT (.atTop (.text bs :: r))).take m) = none := by
                  rw [hptake]
                  exact findMarker_none_of_markerFree _
                    (markerFree_take_text bs r ⟨hwinsafe, hsr⟩ m hmbs)
                rw [writerWriteGo_text_none fuel st _ hmode hpne hfm]
                by_cases hmlt : m < bs.length
                · have hadv : advT (.atTop (.text bs :: r)) m =
                      (.atTop (.text (bs.drop m) :: r), bs.take m, []) := by
                    simp only [advT, advTop, if_pos hmlt]
                  rw [hadv]
                  refine ⟨{ st with textOut := st.textOut ++ (streamOfT (.atTop (.text bs :: r))).take m }, ?_, ?_, ?_, ?_⟩
                  · rw [hplen]
                  · exact Or.inl hmode
                  · show st.textOut ++ (streamOfT (.atTop (.text bs :: r))).take m =
                      st.textOut ++ bs.take m
                    rw [hptake]
                  · show st.binOut = st.binOut ++ []
                    rw [List.append_nil]
                · have hx : advTop r (m - bs.length) = (.atTop r, [], []) := by
                    rw [show m - bs.length = 0 by omega]
                    cases r with
                    | nil => rfl
                    | cons g2 r2 =>
                      cases g2 with
                      | text bs2 =>
                        simp only [headNotText] at hht
                      | blob id3 b3 => rfl
                  have hadv : advT (.atTop (.text bs :: r)) m = (.atTop r, bs ++ [], []) := by
                    simp only [advT, advTop, if_neg hmlt]
                    rw [hx]
                  rw [hadv]
                  refine ⟨{ st with textOut := st.textOut ++ (streamOfT (.atTop (.text bs :: r))).take m }, ?_, ?_, ?_, ?_⟩
                  · rw [hplen]
                  · exact Or.inl hmode
                  · show st.textOut ++ (streamOfT (.atTop (.text bs :: r))).take m =
                      st.textOut ++ (bs ++ [])
                    rw [List.append_nil, hptake, List.take_of_length_le (by omega)]
                  · show st.binOut = st.binOut ++ []
                    rw [List.append_nil]
              · -- the slice crosses into the next frame
                have hcutR : cutOKTop r (m - bs.length) := by
                  have hc : cutOKTop (.text bs :: r) m := hcut
                  simp only [cutOKTop] at hc
                  rwa [if_neg (by omega)] at hc
                cases r with
                | nil =>
                  exfalso
                  simp only [encodeSegs, List.length_nil] at hlen'
                  omega
                | cons g2 r2 =>
                  cases g2 with
                  | text bs2 =>
                    simp only [headNotText] at hht
                  | blob id2 body2 =>
                    have hcc := hcutR
                    simp only [cutOKTop] at hcc
                    obtain ⟨h8or, -⟩ := hcc
                    have h8 : 8 ≤ m - bs.length := by
                      rcases h8or with h | h
                      · omega
                      · exact h
                    have hpeq : (streamOfT (.atTop (.text bs :: .blob id2 body2 :: r2))).take m =
                        bs ++ (encodeSegs (.blob id2 body2 :: r2)).take (m - bs.length) := by
                      simp only [streamOfT]
                      rw [encodeSegs_text_cons, List.take_append_eq_append_take,
                        List.take_of_length_le (by omega)]
                    have hmk8 : ((encodeSegs (.blob id2 body2 :: r2)).take (m - bs.length)).take 8 =
                        BlobMarker := by
                      rw [List.take_take, show min 8 (m - bs.length) = 8 by omega,
                        encodeSegs_blob_cons]
                      exact take8_of_writeBlobHeader id2 body2.length _
                    have hfm : findMarker
                        ((streamOfT (.atTop (.text bs :: .blob id2 body2 :: r2))).take m) =
                        some bs.length := by
                      rw [hpeq, findMarker_append_of_left_free bs _
                          (text_windows_safe bs (.blob id2 body2 :: r2) ⟨hwinsafe, hsr⟩
                            (m - bs.length)),
                        findMarker_of_marker_head _ hmk8]
                      simp
                    rw [writerWriteGo_text_some fuel st _ bs.length hmode hpne hfm,
                      if_pos hbl]
                    have hptk : ((streamOfT (.atTop (.text bs :: .blob id2 body2 :: r2))).take m).take bs.length = bs := by
                      rw [hpeq]
                      exact List.take_left' rfl
                    have hpdr : ((streamOfT (.atTop (.text bs :: .blob id2 body2 :: r2))).take m).drop bs.length =
                        (streamOfT (.atTop (.blob id2 body2 :: r2))).take (m - bs.length) := by
                      rw [hpeq]
                      exact List.drop_left' rfl
                    obtain ⟨st', he, hw, ht, hb⟩ := ih
                      { { st with textOut := st.textOut ++ ((streamOfT (.atTop (.text bs :: .blob id2 body2 :: r2))).take m).take bs.length } with mode := .header, hbuf := [] }
                      (.atTop (.blob id2 body2 :: r2)) (m - bs.length)
                      (Or.inr (Or.inr ⟨rfl, rfl, id2, body2, r2, rfl⟩))
                      hsr hwf hnr hcutR
                      (by simp only [streamOfT]; omega)
                      (by
                        show 3 * (m - bs.length) + 0 < fuel
                        rw [hmode] at hfuel
                        simp only [wrank] at hfuel
                        omega)
                    simp only [advT] at hw ht hb
                    rw [hpdr, he]
                    refine ⟨st', ?_, ?_, ?_, ?_⟩
                    · show (st', bs.length + (m - bs.length), none) = (st', m, none)
                      rw [show bs.length + (m - bs.length) = m by omega]
                    · simp only [advT, advTop, if_neg (show ¬ m < bs.length by omega)]
                      exact hw
                    · simp only [advT, advTop, if_neg (show ¬ m < bs.length by omega)]
                      rw [ht, hptk]
                      exact List.append_assoc st.textOut bs _
                    · simp only [advT, advTop, if_neg (show ¬ m < bs.length by omega)]
                      exact hb
            | blob id2 body2 =>
              -- the stream opens with the marker: enter header mode at once
              have hcc : cutOKTop (.blob id2 body2 :: r) m := hcut
              simp only [cutOKTop] at hcc
              obtain ⟨h8or, -⟩ := hcc
              have h8 : 8 ≤ m := by
                rcases h8or with h | h
                · omega
                · exact h
              have hp8 : ((streamOfT (.atTop (.blob id2 body2 :: r))).take m).take 8 =
                  BlobMarker := by
                rw [List.take_take, show min 8 m = 8 by omega]
                simp only [streamOfT]
                rw [encodeSegs_blob_cons]
                exact take8_of_writeBlobHeader id2 body2.length _
              have hfm : findMarker ((streamOfT (.atTop (.blob id2 body2 :: r))).take m) =
                  some 0 := findMarker_of_marker_head _ hp8
              rw [writerWriteGo_text_some fuel st _ 0 hmode hpne hfm,
                if_neg (lt_irrefl 0), List.drop_zero]
              obtain ⟨st', he, hw, ht, hb⟩ := ih { st with mode := .header, hbuf := [] }
                (.atTop (.blob id2 body2 :: r)) m
                (Or.inr (Or.inr ⟨rfl, rfl, id2, body2, r, rfl⟩)) hsafe hwf hnorm hcut hlen
                (by
                  show 3 * m + 0 < fuel
                  rw [hmode] at hfuel
                  simp only [wrank] at hfuel
                  omega)
              rw [he]
              refine ⟨st', ?_, hw, ht, hb⟩
              show (st', 0 + m, none) = (st', m, none)
              rw [Nat.zero_add]
        · -- binary mode with nothing outstanding: fall through to text mode
          rw [writerWriteGo_binary_zero fuel st _ hmode hpne hrm]
          obtain ⟨st', he, hw, ht, hb⟩ := ih { st with mode := .text } (.atTop L) m
            (Or.inl rfl) hsafe hwf hnorm hcut hlen
            (by
              show 3 * m + 1 < fuel
              rw [hmode] at hfuel
              simp only [wrank] at hfuel
              omega)
          exact ⟨st', he, hw, ht, hb⟩
        · -- header mode with an empty buffer, in front of a frame
          subst hL
          have hcc : cutOKTop (.blob id0 body0 :: r0) m := hcut
          simp only [cutOKTop] at hcc
          obtain ⟨h8or, hrest⟩ := hcc
          have h8 : 8 ≤ m := by
            rcases h8or with h | h
            · omega
            · exact h
          have hwf' : wfSegs (.blob id0 body0 :: r0) := hwf
          obtain ⟨hid, hsz, hwr⟩ := hwf'
          have hlb : st.hbuf.length = 0 := by rw [hhb]; rfl
          have hstream : streamOfT (.atTop (.blob id0 body0 :: r0)) =
              WriteBlobHeader id0 body0.length ++ (body0 ++ encodeSegs r0) := by
            simp only [streamOfT]
            rw [encodeSegs_blob_cons]
          by_cases hm16 : m < 16
          · -- the slice ends inside the 16-byte header
            have hadv : advT (.atTop (.blob id0 body0 :: r0)) m =
                (.inHeader id0 body0 m r0, [], []) := by
              simp only [advT, advTop, if_neg hm0, if_pos hm16]
            rw [writerWriteGo_header_fill fuel st _ hmode hpne
              (by rw [hplen, hlb]; omega), hadv]
            refine ⟨{ st with hbuf := st.hbuf ++ (streamOfT (.atTop (.blob id0 body0 :: r0))).take m }, ?_, ?_, ?_, ?_⟩
            · rw [hplen]
            · refine ⟨hmode, ?_, by omega, hm16⟩
              show st.hbuf ++ (streamOfT (.atTop (.blob id0 body0 :: r0))).take m =
                (WriteBlobHeader id0 body0.length).take m
              rw [hhb, List.nil_append, hstream,
                take_of_marker_stream _ _ m (writeBlobHeader_length id0 body0.length)
                  (by omega)]
            · show st.textOut = st.textOut ++ []
              rw [List.append_nil]
            · show st.binOut = st.binOut ++ []
              rw [List.append_nil]
          · -- the slice covers the whole header
            have h160 : 16 - st.hbuf.length = 16 := by rw [hlb]
            have hp16 : ((streamOfT (.atTop (.blob id0 body0 :: r0))).take m).take 16 =
                WriteBlobHeader id0 body0.length := by
              rw [List.take_take, show min 16 m = 16 by omega, hstream]
              exact List.take_left' (writeBlobHeader_length id0 body0.length)
            have hfull : st.hbuf ++
                ((streamOfT (.atTop (.blob id0 body0 :: r0))).take m).take (16 - st.hbuf.length) =
                WriteBlobHeader id0 body0.length := by
              rw [h160, hhb, List.nil_append, hp16]
            have hdec : (ReadBlobHeader (st.hbuf ++
                ((streamOfT (.atTop (.blob id0 body0 :: r0))).take m).take (16 - st.hbuf.length))).1 =
                .ok (id0, body0.length) := by
              rw [hfull, readBlobHeader_exact id0 body0.length hid hsz]
            have hdrop : ((streamOfT (.atTop (.blob id0 body0 :: r0))).take m).drop (16 - st.hbuf.length) =
                (streamOfT (.inBody id0 body0 0 r0)).take (m - 16) := by
              rw [h160, List.drop_take, hstream,
                List.drop_left' (writeBlobHeader_length id0 body0.length)]
              simp only [streamOfT, List.drop_zero]
            rw [writerWriteGo_header_full fuel st _ hmode hpne
              (by rw [hplen, hlb]; omega) id0 body0.length hdec, hdrop, hfull]
            have hcomb := advTop_blob_combine id0 body0 r0 m (by omega)
            by_cases hm2 : m - 16 = 0
            · rw [hm2, List.take_zero, writerWriteGo_all_nil]
              have hsim1 : WSim { st with mode := .binary, binSize := body0.length, binCount := 0, binOut := st.binOut ++ WriteBlobHeader id0 body0.length } (.inBody id0 body0 0 r0) := ⟨rfl, rfl⟩
              obtain ⟨hw0, hz1, hz2⟩ := sim_advT_zero _ (.inBody id0 body0 0 r0) hsim1 hnorm
              refine ⟨{ st with mode := .binary, binSize := body0.length, binCount := 0, binOut := st.binOut ++ WriteBlobHeader id0 body0.length }, ?_, ?_, ?_, ?_⟩
              · show (_, 16 - st.hbuf.length + 0, none) = (_, m, none)
                rw [h160, show (16 : Nat) + 0 = m by omega]
              · simp only [advT]
                rw [hcomb, hm2]
                exact hw0
              · simp only [advT]
                rw [hcomb, hm2, hz1]
                show st.textOut = st.textOut ++ []
                rw [List.append_nil]
              · simp only [advT]
                rw [hcomb, hm2, hz2]
                show st.binOut ++ WriteBlobHeader id0 body0.length =
                  st.binOut ++ (WriteBlobHeader id0 body0.length ++ [])
                rw [List.append_nil]
            · obtain ⟨st', he, hw, ht, hb⟩ := ih
                { st with mode := .binary, binSize := body0.length, binCount := 0, binOut := st.binOut ++ WriteBlobHeader id0 body0.length }
                (.inBody id0 body0 0 r0) (m - 16)
                ⟨rfl, rfl⟩ hsafe ⟨hid, hsz, hwr⟩ hnorm
                (by
                  simp only [cutOKT]
                  by_cases hc : m - 16 ≤ body0.length - 0
                  · rw [if_pos hc]
                    trivial
                  · rw [if_neg hc]
                    rw [if_neg (by omega)] at hrest
                    rw [show m - 16 - (body0.length - 0) = m - (16 + body0.length) by omega]
                    exact hrest)
                (by
                  have hlen2 := hlen
                  rw [hstream] at hlen2
                  simp only [List.length_append, writeBlobHeader_length] at hlen2
                  simp only [streamOfT, List.length_append, List.length_drop]
                  omega)
                (by
                  show 3 * (m - 16) + 2 < fuel
                  rw [hmode] at hfuel
                  simp only [wrank] at hfuel
                  omega)
              rw [he]
              refine ⟨st', ?_, ?_, ?_, ?_⟩
              · show (st', 16 - st.hbuf.length + (m - 16), none) = (st', m, none)
                rw [h160, show 16 + (m - 16) = m by omega]
              · simp only [advT]
                rw [hcomb]
                exact hw
              · simp only [advT]
                rw [hcomb, ht]
              · simp only [advT]
                rw [hcomb, hb]
                show (st.binOut ++ WriteBlobHeader id0 body0.length) ++ _ =
                  st.binOut ++ (WriteBlobHeader id0 body0.length ++ _)
                rw [List.append_assoc]
      | inHeader id body hn L =>
        obtain ⟨hmode, hhb, h8n, h16n⟩ := hsim
        have hwf' : id < 2 ^ 32 ∧ body.length < 2 ^ 32 ∧ wfSegs L := hwf
        obtain ⟨hid, hsz, hwr⟩ := hwf'
        have hlb : st.hbuf.length = hn := by
          rw [hhb, List.length_take, writeBlobHeader_length]
          omega
        have hWd : ((WriteBlobHeader id body.length).drop hn).length = 16 - hn := by
          rw [List.length_drop, writeBlobHeader_length]
        by_cases hmt : m < 16 - hn
        · -- still inside the header
          have hpW : (streamOfT (.inHeader id body hn L)).take m =
              ((WriteBlobHeader id body.length).drop hn).take m := by
            show ((WriteBlobHeader id body.length).drop hn ++ (body ++ encodeSegs L)).take m = _
            rw [List.take_append_eq_append_take, show m - ((WriteBlobHeader id body.length).drop hn).length = 0
              by rw [hWd]; omega, List.take_zero, List.append_nil]
          have hadv : advT (.inHeader id body hn L) m = (.inHeader id body (hn + m) L, [], []) := by
            simp only [advT]
            rw [if_pos hmt]
          rw [writerWriteGo_header_fill fuel st _ hmode hpne
            (by rw [hplen, hlb]; omega), hadv]
          refine ⟨{ st with hbuf := st.hbuf ++ (streamOfT (.inHeader id body hn L)).take m }, ?_, ?_, ?_, ?_⟩
          · rw [hplen]
          · refine ⟨hmode, ?_, by omega, by omega⟩
            show st.hbuf ++ (streamOfT (.inHeader id body hn L)).take m =
              (WriteBlobHeader id body.length).take (hn + m)
            rw [hhb, hpW, List.take_add]
          · show st.textOut = st.textOut ++ []
            rw [List.append_nil]
          · show st.binOut = st.binOut ++ []
            rw [List.append_nil]
        · -- the header completes within this slice
          have h16r : 16 - st.hbuf.length = 16 - hn := by rw [hlb]
          have hptk : ((streamOfT (.inHeader id body hn L)).take m).take (16 - hn) =
              (WriteBlobHeader id body.length).drop hn := by
            rw [List.take_take, show min (16 - hn) m = 16 - hn by omega]
            show ((WriteBlobHeader id body.length).drop hn ++ (body ++ encodeSegs L)).take (16 - hn) = _
            exact List.take_left' hWd
          have hfull : st.hbuf ++
              ((streamOfT (.inHeader id body hn L)).take m).take (16 - st.hbuf.length) =
              WriteBlobHeader id body.length := by
            rw [h16r, hptk, hhb, List.take_append_drop]
          have hdec : (ReadBlobHeader (st.hbuf ++
              ((streamOfT (.inHeader id body hn L)).take m).take (16 - st.hbuf.length))).1 =
              .ok (id, body.length) := by
            rw [hfull, readBlobHeader_exact id body.length hid hsz]
          have hdrop : ((streamOfT (.inHeader id body hn L)).take m).drop (16 - st.hbuf.length) =
              (streamOfT (.inBody id body 0 L)).take (m - (16 - hn)) := by
            rw [h16r, List.drop_take]
            show (((WriteBlobHeader id body.length).drop hn ++ (body ++ encodeSegs L)).drop (16 - hn)).take _ = _
            rw [List.drop_left' hWd]
            simp only [streamOfT, List.drop_zero]
          rw [writerWriteGo_header_full fuel st _ hmode hpne
            (by rw [hplen, hlb]; omega) id body.length hdec, hdrop, hfull]
          have hcomb := advT_inHeader_combine id body L hn m (by omega)
          by_cases hm2 : m - (16 - hn) = 0
          · rw [hm2, List.take_zero, writerWriteGo_all_nil]
            have hsim1 : WSim { st with mode := .binary, binSize := body.length, binCount := 0, binOut := st.binOut ++ WriteBlobHeader id body.length } (.inBody id body 0 L) := ⟨rfl, rfl⟩
            obtain ⟨hw0, hz1, hz2⟩ := sim_advT_zero _ (.inBody id body 0 L) hsim1 hnorm
            refine ⟨{ st with mode := .binary, binSize := body.length, binCount := 0, binOut := st.binOut ++ WriteBlobHeader id body.length }, ?_, ?_, ?_, ?_⟩
            · show (_, 16 - st.hbuf.length + 0, none) = (_, m, none)
              rw [h16r, show 16 - hn + 0 = m by omega]
            · rw [hcomb, hm2]
              exact hw0
            · rw [hcomb, hm2, hz1]
              show st.textOut = st.textOut ++ []
              rw [List.append_nil]
            · rw [hcomb, hm2, hz2]
              show st.binOut ++ WriteBlobHeader id body.length =
                st.binOut ++ (WriteBlobHeader id body.length ++ [])
              rw [List.append_nil]
          · obtain ⟨st', he, hw, ht, hb⟩ := ih
              { st with mode := .binary, binSize := body.length, binCount := 0, binOut := st.binOut ++ WriteBlobHeader id body.length }
              (.inBody id body 0 L) (m - (16 - hn))
              ⟨rfl, rfl⟩ hsafe ⟨hid, hsz, hwr⟩ hnorm
              (by
                have hcutc : cutOKT (.inHeader id body hn L) m := hcut
                simp only [cutOKT] at hcutc
                simp only [cutOKT]
                by_cases hc : m - (16 - hn) ≤ body.length - 0
                · rw [if_pos hc]
                  trivial
                · rw [if_neg hc]
                  rw [if_neg (by omega)] at hcutc
                  rw [show m - (16 - hn) - (body.length - 0) = m - (16 - hn + body.length) by omega]
                  exact hcutc)
              (by
                have hlen2 := hlen
                simp only [streamOfT, List.length_append, List.length_drop,
                  writeBlobHeader_length] at hlen2
                simp only [streamOfT, List.length_append, List.length_drop]
                omega)
              (by
                show 3 * (m - (16 - hn)) + 2 < fuel
                rw [hmode] at hfuel
                simp only [wrank] at hfuel
                omega)
            rw [he]
            refine ⟨st', ?_, ?_, ?_, ?_⟩
            · show (st', 16 - st.hbuf.length + (m - (16 - hn)), none) = (st', m, none)
              rw [h16r, show 16 - hn + (m - (16 - hn)) = m by omega]
            · rw [hcomb]
              exact hw
            · rw [hcomb, ht]
            · rw [hcomb, hb]
              show (st.binOut ++ WriteBlobHeader id body.length) ++ _ =
                st.binOut ++ (WriteBlobHeader id body.length ++ _)
              rw [List.append_assoc]
      | inBody id body done L =>
        obtain ⟨hmode, hrem⟩ := hsim
        have hwf' : id < 2 ^ 32 ∧ body.length < 2 ^ 32 ∧ wfSegs L := hwf
        obtain ⟨hid, hsz, hwr⟩ := hwf'
        by_cases hrz : body.length - done = 0
        · -- nothing outstanding of the body: fall through to text mode
          have hz : st.binSize - st.binCount = 0 := by omega
          rw [writerWriteGo_binary_zero fuel st _ hmode hpne hz]
          have hbd : body.drop done = [] := List.drop_eq_nil_of_le (by omega)
          have hstream0 : streamOfT (.inBody id body done L) = streamOfT (.atTop L) := by
            simp only [streamOfT]
            rw [hbd, List.nil_append]
          rw [hstream0]
          obtain ⟨st', he, hw, ht, hb⟩ := ih { st with mode := .text } (.atTop L) m
            (Or.inl rfl) hsafe hwr hnorm
            (by
              have hcutc : cutOKT (.inBody id body done L) m := hcut
              simp only [cutOKT] at hcutc
              rw [if_neg (by omega)] at hcutc
              rw [show m - (body.length - done) = m by omega] at hcutc
              exact hcutc)
            (by
              have hlen2 := hlen
              rw [hstream0] at hlen2
              exact hlen2)
            (by
              show 3 * m + 1 < fuel
              rw [hmode] at hfuel
              simp only [wrank] at hfuel
              omega)
          rw [he]
          have hadv : advT (.inBody id body done L) m =
              ((advTop L m).1, (advTop L m).2.1, (advTop L m).2.2) := by
            simp only [advT]
            rw [if_neg (show ¬ m < body.length - done by omega),
              if_neg (show ¬ m = body.length - done by omega),
              show m - (body.length - done) = m by omega, hbd, List.nil_append]
          simp only [advT] at hw ht hb
          rw [hadv]
          exact ⟨st', rfl, hw, ht, hb⟩
        · -- forward body bytes to the binary sink
          have hz : ¬ (st.binSize - st.binCount = 0) := by omega
          have hdl : (body.drop done).length = body.length - done := List.length_drop done body
          rw [writerWriteGo_binary_pos fuel st _ hmode hpne hz]
          by_cases hmr : m < body.length - done
          · -- the slice stays inside the body
            have hmin : min ((streamOfT (.inBody id body done L)).take m).length
                (st.binSize - st.binCount) = m := by
              rw [hplen, hrem]
              omega
            have hptall : ((streamOfT (.inBody id body done L)).take m).take m =
                (streamOfT (.inBody id body done L)).take m := by
              rw [List.take_take, Nat.min_self]
            have hpd : ((streamOfT (.inBody id body done L)).take m).drop m = [] :=
              List.drop_eq_nil_of_le (by rw [hplen])
            rw [hmin, hptall, hpd, writerWriteGo_all_nil]
            have hpbody : (streamOfT (.inBody id body done L)).take m =
                (body.drop done).take m := by
              show (body.drop done ++ encodeSegs L).take m = _
              rw [List.take_append_eq_append_take, show m - (body.drop done).length = 0
                by omega, List.take_zero, List.append_nil]
            have hadv : advT (.inBody id body done L) m =
                (.inBody id body (done + m) L, [], (body.drop done).take m) := by
              simp only [advT]
              rw [if_pos hmr]
            rw [hadv]
            refine ⟨{ st with binOut := st.binOut ++ (streamOfT (.inBody id body done L)).take m, binCount := st.binCount + m }, ?_, ?_, ?_, ?_⟩
            · show (_, m + 0, none) = (_, m, none)
              rw [Nat.add_zero]
            · refine ⟨hmode, ?_⟩
              show st.binSize - (st.binCount + m) = body.length - (done + m)
              omega
            · show st.textOut = st.textOut ++ []
              rw [List.append_nil]
            · show st.binOut ++ (streamOfT (.inBody id body done L)).take m =
                st.binOut ++ (body.drop done).take m
              rw [hpbody]
          · -- the slice reaches the end of the body
            have hmin : min ((streamOfT (.inBody id body done L)).take m).length
                (st.binSize - st.binCount) = body.length - done := by
              rw [hplen, hrem]
              omega
            have hptk : ((streamOfT (.inBody id body done L)).take m).take (body.length - done) =
                body.drop done := by
              rw [List.take_take, show min (body.length - done) m = body.length - done by omega]
              show (body.drop done ++ encodeSegs L).take (body.length - done) = _
              exact List.take_left' hdl
            have hpdr : ((streamOfT (.inBody id body done L)).take m).drop (body.length - done) =
                (streamOfT (.atTop L)).take (m - (body.length - done)) := by
              rw [List.drop_take]
              show ((body.drop done ++ encodeSegs L).drop (body.length - done)).take (m - (body.length - done)) =
                (encodeSegs L).take (m - (body.length - done))
              rw [List.drop_left' hdl]
            rw [hmin, hptk, hpdr]
            by_cases hme : m - (body.length - done) = 0
            · rw [hme, List.take_zero, writerWriteGo_all_nil]
              have hadv : advT (.inBody id body done L) m = (.atTop L, [], body.drop done) := by
                simp only [advT]
                rw [if_neg hmr, if_pos (show m = body.length - done by omega)]
              rw [hadv]
              refine ⟨{ st with binOut := st.binOut ++ body.drop done, binCount := st.binCount + (body.length - done) }, ?_, ?_, ?_, ?_⟩
              · show (_, body.length - done + 0, none) = (_, m, none)
                rw [show body.length - done + 0 = m by omega]
              · refine Or.inr (Or.inl ⟨hmode, ?_⟩)
                show st.binSize - (st.binCount + (body.length - done)) = 0
                omega
              · show st.textOut = st.textOut ++ []
                rw [List.append_nil]
              · rfl
            · obtain ⟨st', he, hw, ht, hb⟩ := ih
                { st with binOut := st.binOut ++ body.drop done, binCount := st.binCount + (body.length - done) }
                (.atTop L) (m - (body.length - done))
                (Or.inr (Or.inl ⟨hmode, by
                  show st.binSize - (st.binCount + (body.length - done)) = 0
                  omega⟩))
                hsafe hwr hnorm
                (by
                  have hcutc : cutOKT (.inBody id body done L) m := hcut
                  simp only [cutOKT] at hcutc
                  rw [if_neg (by omega)] at hcutc
                  exact hcutc)
                (by
                  have hlen2 := hlen
                  simp only [streamOfT, List.length_append, List.length_drop] at hlen2
                  simp only [streamOfT]
                  omega)
                (by
                  show 3 * (m - (body.length - done)) + wrank st.mode < fuel
                  rw [hmode] at hfuel ⊢
                  simp only [wrank] at hfuel ⊢
                  omega)
              simp only [advT] at hw ht hb
              rw [he]
              have hadv : advT (.inBody id body done L) m =
                  ((advTop L (m - (body.length - done))).1,
                    (advTop L (m - (body.length - done))).2.1,
                    body.drop done ++ (advTop L (m - (body.length - done))).2.2) := by
                simp only [advT]
                rw [if_neg hmr, if_neg (show ¬ m = body.length - done by omega)]
              rw [hadv]
              refine ⟨st', ?_, hw, ht, ?_⟩
              · show (st', body.length - done + (m - (body.length - done)), none) = (st', m, none)
                rw [show body.length - done + (m - (body.length - done)) = m by omega]
              · rw [hb]
                show (st.binOut ++ body.drop done) ++ _ =
                  st.binOut ++ (body.drop done ++ _)
                rw [List.append_assoc]

/-! ### Writer: chunked runs over a whole stream -/

/-- True of a tail whose mid-header position (if any) is a real one. -/
def goodT : WTail → Prop
  | .inHeader _ _ hn _ => hn < 16
  | _ => True

theorem advTop_good : ∀ (L : List Seg) (m : Nat), goodT (advTop L m).1 := by
  intro L
  induction L with
  | nil => intro m; exact trivial
  | cons g r ih =>
    intro m
    cases g with
    | text bs =>
      by_cases hm : m < bs.length
      · simp only [advTop, if_pos hm]
        exact trivial
      · simp only [advTop, if_neg hm]
        exact ih (m - bs.length)
    | blob id body =>
      by_cases h0 : m = 0
      · simp only [advTop, if_pos h0]
        exact trivial
      · by_cases h16 : m < 16
        · simp only [advTop, if_neg h0, if_pos h16]
          exact h16
        · by_cases hfl : m < 16 + body.length
          · simp only [advTop, if_neg h0, if_neg h16, if_pos hfl]
            exact trivial
          · by_cases hfe : m = 16 + body.length
            · simp only [advTop, if_neg h0, if_neg h16, if_neg hfl, if_pos hfe]
              exact trivial
            · simp only [advTop, if_neg h0, if_neg h16, if_neg hfl, if_neg hfe]
              exact ih (m - (16 + body.length))

theorem advT_good (T : WTail) (m : Nat) : goodT (advT T m).1 := by
  cases T with
  | atTop L => exact advTop_good L m
  | inHeader id body hn L =>
    simp only [advT]
    by_cases h1 : m < 16 - hn
    · simp only [if_pos h1]
      show hn + m < 16
      omega
    · by_cases h2 : m < (16 - hn) + body.length
      · simp only [if_neg h1, if_pos h2]
        exact trivial
      · by_cases h3 : m = (16 - hn) + body.length
        · simp only [if_neg h1, if_neg h2, if_pos h3]
          exact trivial
        · simp only [if_neg h1, if_neg h2, if_neg h3]
          exact advTop_good L (m - ((16 - hn) + body.length))
  | inBody id body done L =>
    simp only [advT]
    by_cases h1 : m < body.length - done
    · simp only [if_pos h1]
      exact trivial
    · by_cases h2 : m = body.length - done
      · simp only [if_neg h1, if_pos h2]
        exact trivial
      · simp only [if_neg h1, if_neg h2]
        exact advTop_good L (m - (body.length - done))

/-- An encoded stream of length zero carries no text and no frames. -/
theorem encodeSegs_nil_rem : ∀ L : List Seg, (encodeSegs L).length = 0 →
    textOf L = [] ∧ framesOf L = [] := by
  intro L
  induction L with
  | nil => intro _; exact ⟨rfl, rfl⟩
  | cons g r ih =>
    intro h0
    cases g with
    | text bs =>
      rw [encodeSegs_text_cons, List.length_append] at h0
      obtain ⟨ht, hf⟩ := ih (by omega)
      have hbs : bs = [] := List.eq_nil_of_length_eq_zero (by omega)
      exact ⟨by simp [textOf, hbs, ht], by simp [framesOf, hf]⟩
    | blob id body =>
      exfalso
      rw [encodeSegs_blob_cons, List.length_append, writeBlobHeader_length] at h0
      omega

/-- A tail whose remaining stream is empty owes nothing to either sink. -/
theorem remOf_nil (T : WTail) (hg : goodT T)
    (h0 : (streamOfT T).length = 0) : textRemOf T = [] ∧ binRemOf T = [] := by
  cases T with
  | atTop L => exact encodeSegs_nil_rem L h0
  | inHeader id body hn L =>
    exfalso
    simp only [streamOfT, List.length_append, List.length_drop,
      writeBlobHeader_length] at h0
    have : hn < 16 := hg
    omega
  | inBody id body done L =>
    simp only [streamOfT, List.length_append, List.length_drop] at h0
    obtain ⟨ht, hf⟩ := encodeSegs_nil_rem L (by omega)
    refine ⟨ht, ?_⟩
    show body.drop done ++ framesOf L = []
    rw [List.drop_eq_nil_of_le (by omega), hf]
    rfl

/-- Slice the remaining stream of a tail into payloads of sizes `ms`. -/
def sliceStream : WTail → List Nat → List (List Nat)
  | _, [] => []
  | T, m :: ms => (streamOfT T).take m :: sliceStream (advT T m).1 ms

/-- The sizes `ms` are valid cut points from tail `T` on: each slice fits
in the remaining stream and no slice boundary splits a marker. -/
def cutsOK : WTail → List Nat → Prop
  | _, [] => True
  | T, m :: ms => cutOKT T m ∧ m ≤ (streamOfT T).length ∧ cutsOK (advT T m).1 ms

instance cutsOKDec : (T : WTail) → (ms : List Nat) → Decidable (cutsOK T ms)
  | _, [] => .isTrue trivial
  | T, m :: ms => by
    unfold cutsOK
    have := cutsOKDec (advT T m).1 ms
    exact inferInstance

/-- A caller loop of `Write` calls covering the whole remaining stream,
with every cut legal, accepts every byte without error and routes the
stream's text to the text sink and its frames to the binary sink. -/
theorem runWriter_sim : ∀ (ms : List Nat) (st : WriterSt) (T : WTail),
    WSim st T → safeT T → wfT T → normT T → goodT T → cutsOK T ms →
    ms.sum = (streamOfT T).length →
    ∃ st', runWriter st (sliceStream T ms) = (st', ms, none) ∧
      st'.textOut = st.textOut ++ textRemOf T ∧
      st'.binOut = st.binOut ++ binRemOf T := by
  intro ms
  induction ms with
  | nil =>
    intro st T hsim hsafe hwf hnorm hgood hcuts hsum
    obtain ⟨ht0, hb0⟩ := remOf_nil T hgood (by simp at hsum; omega)
    exact ⟨st, rfl, by rw [ht0, List.append_nil], by rw [hb0, List.append_nil]⟩
  | cons m ms ih =>
    intro st T hsim hsafe hwf hnorm hgood hcuts hsum
    obtain ⟨hcm, hlm, hcs⟩ := hcuts
    have hplen : ((streamOfT T).take m).length = m := by
      rw [List.length_take]
      omega
    have hwr2 : wrank st.mode ≤ 2 := by cases st.mode <;> simp [wrank]
    have hfuel : 3 * m + wrank st.mode < 3 * ((streamOfT T).take m).length + 3 := by
      rw [hplen]
      omega
    obtain ⟨st1, he1, hw1, ht1, hb1⟩ :=
      writerWriteGo_sim (3 * ((streamOfT T).take m).length + 3) st T m
        hsim hsafe hwf hnorm hcm hlm hfuel
    have hcall : writerWrite st ((streamOfT T).take m) = (st1, m, none) := he1
    obtain ⟨hsafe2, hwf2, hnorm2⟩ := advT_inv T m hsafe hwf hnorm
    have hgood2 := advT_good T m
    have hsum2 : ms.sum = (streamOfT (advT T m).1).length := by
      rw [advT_stream, List.length_drop]
      simp only [List.sum_cons] at hsum
      omega
    obtain ⟨st', he', ht', hb'⟩ :=
      ih st1 (advT T m).1 hw1 hsafe2 hwf2 hnorm2 hgood2 hcs hsum2
    obtain ⟨htel1, htel2⟩ := advT_telescope T m
    refine ⟨st', ?_, ?_, ?_⟩
    · simp only [sliceStream, runWriter, hcall, he']
    · rw [ht', ht1, htel1, List.append_assoc]
    · rw [hb', hb1, htel2, List.append_assoc]

/-! ### Writer: totality and byte conservation on arbitrary input -/

instance headNotTextDec : (L : List Seg) → Decidable (headNotText L)
  | [] => .isTrue trivial
  | .text _ :: _ => .isFalse (fun h => h)
  | .blob _ _ :: _ => .isTrue trivial

instance normPDec : (L : List Seg) → Decidable (normP L)
  | [] => .isTrue trivial
  | .text bs :: r => by
    unfold normP
    have := normPDec r
    exact inferInstance
  | .blob _ _ :: r => by
    unfold normP
    exact normPDec r

/-- A `bytes.Index` hit really is a marker occurrence. -/
theorem findMarker_some_marker : ∀ (p : List Nat) (idx : Nat),
    findMarker p = some idx → (p.drop idx).take 8 = BlobMarker := by
  intro p
  induction p with
  | nil => intro idx h; exact absurd h (by simp [findMarker])
  | cons b r ih =>
    intro idx h
    by_cases hm : (b :: r).take 8 = BlobMarker
    · rw [findMarker_of_marker_head _ hm] at h
      obtain rfl : idx = 0 := by
        injection h with h2
        omega
      exact hm
    · rw [findMarker_cons_of_ne b r hm] at h
      match hfr : findMarker r with
      | none =>
        rw [hfr] at h
        exact absurd h (by simp)
      | some j =>
        rw [hfr] at h
        simp at h
        obtain rfl : idx = j + 1 := by omega
        exact ih j hfr

theorem length_ge_of_take8_marker (p : List Nat) (h : p.take 8 = BlobMarker) :
    8 ≤ p.length := by
  have := congrArg List.length h
  rw [List.length_take, blobMarker_length] at this
  omega

/-- Decoding any marker-prefixed buffer of at least 16 bytes succeeds. -/
theorem readBlobHeader_marker_ok (s : List Nat) (hmk : s.take 8 = BlobMarker)
    (hlen : 16 ≤ s.length) :
    (ReadBlobHeader s).1 = .ok (dec4 ((s.drop 8).take 4), dec4 ((s.drop 12).take 4)) := by
  have h1 : readFull 8 s = (.ok (s.take 8), s.drop 8) :=
    readFull_exact 8 s (by omega)
  have h2 := rbhem_of_ge (s.drop 8) (by rw [List.length_drop]; omega)
  simp only [ReadBlobHeader, h1, if_pos hmk, h2, List.drop_drop]

/-- The decode-failure branch of the header state: the Writer flushes the
previously buffered bytes `header[:headerN]`, returns to text mode, and
surfaces the decode error after the flush. -/
theorem writerWriteGo_header_fail (f : Nat) (st : WriterSt) (p : List Nat)
    (hm : st.mode = .header) (hne : p ≠ [])
    (hge : 16 - st.hbuf.length ≤ p.length) (e : IOError)
    (hdec : (ReadBlobHeader (st.hbuf ++ p.take (16 - st.hbuf.length))).1 =
      .error e) :
    writerWriteGo (f + 1) st p =
      ({ st with mode := .text, textOut := st.textOut ++ (st.hbuf ++ p.take (16 - st.hbuf.length)).take st.hbuf.length }, 16 - st.hbuf.length + ((st.hbuf ++ p.take (16 - st.hbuf.length)).take st.hbuf.length).length, some e) := by
  simp only [writerWriteGo, if_neg (isEmpty_false_of_ne p hne), hm,
    if_pos hge, hdec]

/-- Bytes a writer state has accounted for: text-sink bytes, binary-sink
bytes, and (in header mode) the buffered header prefix. -/
def wOut (st : WriterSt) : Nat :=
  st.textOut.length + st.binOut.length +
    (if st.mode = .header then st.hbuf.length else 0)

theorem wOut_header (st : WriterSt) (h : st.mode = .header) :
    wOut st = st.textOut.length + st.binOut.length + st.hbuf.length := by
  simp [wOut, h]

theorem wOut_nonheader (st : WriterSt) (h : ¬ st.mode = .header) :
    wOut st = st.textOut.length + st.binOut.length := by
  simp [wOut, h]

/-- In any state whose header buffer (together, in the just-switched case,
with the pending input) starts with the marker, a `Write` call consumes its
whole payload, reports no error, accounts for every consumed byte, and
re-establishes the buffer condition. -/
theorem writerWriteGo_total : ∀ (fuel : Nat) (st : WriterSt) (p : List Nat),
    (st.mode = .header →
      (st.hbuf.take 8 = BlobMarker ∧ 8 ≤ st.hbuf.length ∧ st.hbuf.length < 16) ∨
      (st.hbuf = [] ∧ p.take 8 = BlobMarker)) →
    3 * p.length + wrank st.mode < fuel →
    ∃ st', writerWriteGo fuel st p = (st', p.length, none) ∧
      wOut st' = wOut st + p.length ∧
      (st'.mode = .header →
        st'.hbuf.take 8 = BlobMarker ∧ 8 ≤ st'.hbuf.length ∧ st'.hbuf.length < 16) := by
  intro fuel
  induction fuel with
  | zero => intro st p _ hfuel; omega
  | succ fuel ih =>
    intro st p hK hfuel
    by_cases hp0 : p = []
    · subst hp0
      refine ⟨st, writerWriteGo_all_nil _ st, by simp, ?_⟩
      intro hdr
      rcases hK hdr with ha | ⟨-, hb⟩
      · exact ha
      · exact absurd hb (by simp [BlobMarker])
    · cases hmode : st.mode with
      | text =>
        match hfm : findMarker p with
        | none =>
          rw [writerWriteGo_text_none fuel st p hmode hp0 hfm]
          refine ⟨_, rfl, ?_, ?_⟩
          · rw [wOut_nonheader _ (by simp [hmode]), wOut_nonheader st (by simp [hmode])]
            show (st.textOut ++ p).length + st.binOut.length =
              st.textOut.length + st.binOut.length + p.length
            rw [List.length_append]
            omega
          · intro hdr
            have h2 : st.mode = WMode.header := hdr
            rw [hmode] at h2
            exact absurd h2 (by simp)
        | some idx =>
          have hmk : (p.drop idx).take 8 = BlobMarker := findMarker_some_marker p idx hfm
          have h8 : 8 ≤ p.length - idx := by
            have := length_ge_of_take8_marker _ hmk
            rw [List.length_drop] at this
            omega
          rw [writerWriteGo_text_some fuel st p idx hmode hp0 hfm]
          obtain ⟨st', he, hw, hinv⟩ := ih
            { (if 0 < idx then { st with textOut := st.textOut ++ p.take idx } else st) with mode := .header, hbuf := [] } (p.drop idx)
            (fun _ => Or.inr ⟨rfl, hmk⟩)
            (by
              show 3 * (p.drop idx).length + 0 < fuel
              rw [List.length_drop]
              rw [hmode] at hfuel
              simp only [wrank] at hfuel
              omega)
          rw [he]
          refine ⟨st', ?_, ?_, hinv⟩
          · show (st', idx + (p.drop idx).length, none) = (st', p.length, none)
            rw [List.length_drop, show idx + (p.length - idx) = p.length by omega]
          · rw [hw]
            by_cases hidx : 0 < idx
            · rw [if_pos hidx]
              rw [wOut_nonheader st (by simp [hmode])]
              show ((st.textOut ++ p.take idx).length + st.binOut.length + 0) +
                (p.drop idx).length = st.textOut.length + st.binOut.length + p.length
              rw [List.length_append, List.length_take, List.length_drop]
              omega
            · rw [if_neg hidx]
              rw [wOut_nonheader st (by simp [hmode])]
              show (st.textOut.length + st.binOut.length + 0) + (p.drop idx).length =
                st.textOut.length + st.binOut.length + p.length
              rw [List.length_drop]
              omega
      | header =>
        rcases hK hmode with ⟨hmk, h8b, h16b⟩ | ⟨hb0, hmkp⟩
        · -- a partially buffered header from an earlier call
          by_cases hge : 16 - st.hbuf.length ≤ p.length
          · have hfmk : (st.hbuf ++ p.take (16 - st.hbuf.length)).take 8 = BlobMarker := by
              rw [List.take_append_eq_append_take, show 8 - st.hbuf.length = 0 by omega,
                List.take_zero, List.append_nil]
              exact hmk
            have hdec := readBlobHeader_marker_ok (st.hbuf ++ p.take (16 - st.hbuf.length))
              hfmk (by rw [List.length_append, List.length_take]; omega)
            rw [writerWriteGo_header_full fuel st p hmode hp0 hge _ _ hdec]
            obtain ⟨st', he, hw, hinv⟩ := ih
              { st with mode := .binary, binSize := dec4 (((st.hbuf ++ p.take (16 - st.hbuf.length)).drop 12).take 4), binCount := 0, binOut := st.binOut ++ (st.hbuf ++ p.take (16 - st.hbuf.length)) } (p.drop (16 - st.hbuf.length))
              (by
                intro hdr
                have h2 : WMode.binary = WMode.header := hdr
                exact absurd h2 (by simp))
              (by
                show 3 * (p.drop (16 - st.hbuf.length)).length + 2 < fuel
                rw [List.length_drop]
                rw [hmode] at hfuel
                simp only [wrank] at hfuel
                omega)
            rw [he]
            refine ⟨st', ?_, ?_, hinv⟩
            · show (st', 16 - st.hbuf.length + (p.drop (16 - st.hbuf.length)).length, none) =
                (st', p.length, none)
              rw [List.length_drop,
                show 16 - st.hbuf.length + (p.length - (16 - st.hbuf.length)) = p.length
                  by omega]
            · rw [hw]
              rw [wOut_header st hmode]
              show (st.textOut.length + (st.binOut ++ (st.hbuf ++ p.take (16 - st.hbuf.length))).length + 0) +
                (p.drop (16 - st.hbuf.length)).length =
                (st.textOut.length + st.binOut.length + st.hbuf.length) + p.length
              rw [List.length_append, List.length_append, List.length_take, List.length_drop]
              omega
          · rw [writerWriteGo_header_fill fuel st p hmode hp0 (by omega)]
            refine ⟨_, rfl, ?_, ?_⟩
            · rw [wOut_header _ (by simp [hmode]), wOut_header st hmode]
              show st.textOut.length + st.binOut.length + (st.hbuf ++ p).length =
                st.textOut.length + st.binOut.length + st.hbuf.length + p.length
              rw [List.length_append]
              omega
            · intro _
              refine ⟨?_, ?_, ?_⟩
              · show (st.hbuf ++ p).take 8 = BlobMarker
                rw [List.take_append_eq_append_take, show 8 - st.hbuf.length = 0 by omega,
                  List.take_zero, List.append_nil]
                exact hmk
              · show 8 ≤ (st.hbuf ++ p).length
                rw [List.length_append]
                omega
              · show (st.hbuf ++ p).length < 16
                rw [List.length_append]
                omega
        · -- header mode just entered: the payload itself starts with the marker
          have h8p : 8 ≤ p.length := length_ge_of_take8_marker p hmkp
          have hb0l : st.hbuf.length = 0 := by rw [hb0]; rfl
          by_cases hge : 16 - st.hbuf.length ≤ p.length
          · have hfmk : (st.hbuf ++ p.take (16 - st.hbuf.length)).take 8 = BlobMarker := by
              rw [show (16 : Nat) - st.hbuf.length = 16 by omega, hb0, List.nil_append,
                List.take_take, show min 8 16 = 8 by omega]
              exact hmkp
            have hdec := readBlobHeader_marker_ok (st.hbuf ++ p.take (16 - st.hbuf.length))
              hfmk (by rw [List.length_append, List.length_take]; omega)
            rw [writerWriteGo_header_full fuel st p hmode hp0 hge _ _ hdec]
            obtain ⟨st', he, hw, hinv⟩ := ih
              { st with mode := .binary, binSize := dec4 (((st.hbuf ++ p.take (16 - st.hbuf.length)).drop 12).take 4), binCount := 0, binOut := st.binOut ++ (st.hbuf ++ p.take (16 - st.hbuf.length)) } (p.drop (16 - st.hbuf.length))
              (by
                intro hdr
                have h2 : WMode.binary = WMode.header := hdr
                exact absurd h2 (by simp))
              (by
                show 3 * (p.drop (16 - st.hbuf.length)).length + 2 < fuel
                rw [List.length_drop]
                rw [hmode] at hfuel
                simp only [wrank] at hfuel
                omega)
            rw [he]
            refine ⟨st', ?_, ?_, hinv⟩
            · show (st', 16 - st.hbuf.length + (p.drop (16 - st.hbuf.length)).length, none) =
                (st', p.length, none)
              rw [List.length_drop,
                show 16 - st.hbuf.length + (p.length - (16 - st.hbuf.length)) = p.length
                  by omega]
            · rw [hw]
              rw [wOut_header st hmode]
              show (st.textOut.length + (st.binOut ++ (st.hbuf ++ p.take (16 - st.hbuf.length))).length + 0) +
                (p.drop (16 - st.hbuf.length)).length =
                (st.textOut.length + st.binOut.length + st.hbuf.length) + p.length
              rw [List.length_append, List.length_append, List.length_take, List.length_drop]
              omega
          · rw [writerWriteGo_header_fill fuel st p hmode hp0 (by omega)]
            refine ⟨_, rfl, ?_, ?_⟩
            · rw [wOut_header _ (by simp [hmode]), wOut_header st hmode]
              show st.textOut.length + st.binOut.length + (st.hbuf ++ p).length =
                st.textOut.length + st.binOut.length + st.hbuf.length + p.length
              rw [List.length_append]
              omega
            · intro _
              refine ⟨?_, ?_, ?_⟩
              · show (st.hbuf ++ p).take 8 = BlobMarker
                rw [hb0, List.nil_append]
                exact hmkp
              · show 8 ≤ (st.hbuf ++ p).length
                rw [List.length_append]
                omega
              · show (st.hbuf ++ p).length < 16
                rw [List.length_append]
                omega
      | binary =>
        by_cases hz : st.binSize - st.binCount = 0
        · rw [writerWriteGo_binary_zero fuel st p hmode hp0 hz]
          obtain ⟨st', he, hw, hinv⟩ := ih { st with mode := .text } p
            (by
              intro hdr
              have h2 : WMode.text = WMode.header := hdr
              exact absurd h2 (by simp))
            (by
              show 3 * p.length + 1 < fuel
              rw [hmode] at hfuel
              simp only [wrank] at hfuel
              omega)
          refine ⟨st', he, ?_, hinv⟩
          rw [hw, wOut_nonheader _ (by simp), wOut_nonheader st (by simp [hmode])]
        · have hp1 : 0 < p.length := List.length_pos.mpr hp0
          rw [writerWriteGo_binary_pos fuel st p hmode hp0 hz]
          obtain ⟨st', he, hw, hinv⟩ := ih
            { st with binOut := st.binOut ++ p.take (min p.length (st.binSize - st.binCount)), binCount := st.binCount + min p.length (st.binSize - st.binCount) }
            (p.drop (min p.length (st.binSize - st.binCount)))
            (by
              intro hdr
              have h2 : st.mode = WMode.header := hdr
              rw [hmode] at h2
              exact absurd h2 (by simp))
            (by
              show 3 * (p.drop (min p.length (st.binSize - st.binCount))).length +
                wrank st.mode < fuel
              rw [List.length_drop, hmode]
              rw [hmode] at hfuel
              simp only [wrank] at hfuel ⊢
              omega)
          rw [he]
          refine ⟨st', ?_, ?_, hinv⟩
          · show (st', min p.length (st.binSize - st.binCount) +
              (p.drop (min p.length (st.binSize - st.binCount))).length, none) =
              (st', p.length, none)
            rw [List.length_drop,
              show min p.length (st.binSize - st.binCount) +
                (p.length - min p.length (st.binSize - st.binCount)) = p.length by omega]
          · rw [hw, wOut_nonheader _ (by simp [hmode]), wOut_nonheader st (by simp [hmode])]
            show st.textOut.length +
              (st.binOut ++ p.take (min p.length (st.binSize - st.binCount))).length +
              (p.drop (min p.length (st.binSize - st.binCount))).length =
              st.textOut.length + st.binOut.length + p.length
            rw [List.length_append, List.length_take, List.length_drop]
            omega

/-- A caller loop of `Write` calls from any well-buffered state accepts
every chunk in full, reports no error, and accounts for every byte. -/
theorem runWriter_total : ∀ (cs : List (List Nat)) (st : WriterSt),
    (st.mode = .header →
      st.hbuf.take 8 = BlobMarker ∧ 8 ≤ st.hbuf.length ∧ st.hbuf.length < 16) →
    ∃ st', runWriter st cs = (st', cs.map List.length, none) ∧
      wOut st' = wOut st + (cs.map List.length).sum ∧
      (st'.mode = .header →
        st'.hbuf.take 8 = BlobMarker ∧ 8 ≤ st'.hbuf.length ∧ st'.hbuf.length < 16) := by
  intro cs
  induction cs with
  | nil =>
    intro st hinv
    exact ⟨st, rfl, by simp, hinv⟩
  | cons c cs ih =>
    intro st hinv
    have hwr2 : wrank st.mode ≤ 2 := by cases st.mode <;> simp [wrank]
    obtain ⟨st1, he1, hw1, hinv1⟩ := writerWriteGo_total (3 * c.length + 3) st c
      (fun hdr => Or.inl (hinv hdr)) (by omega)
    have hcall : writerWrite st c = (st1, c.length, none) := he1
    obtain ⟨st', he', hw', hinv'⟩ := ih st1 hinv1
    refine ⟨st', ?_, ?_, hinv'⟩
    · simp only [runWriter, hcall, he', List.map_cons]
    · rw [hw', hw1]
      simp only [List.map_cons, List.sum_cons]
      omega

/-! ### Claim theorems -/

/-- C1: mux-then-demux roundtrip.  For every sequence of non-empty,
marker-safe text runs and well-formed blobs, every partition of the wire
bytes into `Write` calls whose boundaries do not split an 8-byte marker
occurrence (boundaries inside the 16-byte header or a blob body are
allowed), and every destination-capacity schedule of the `Read` calls, the
Writer routes exactly the original text to the text sink and the frames to
the binary sink with no error, and the Reader reproduces the original text
and invokes the handler on the original `(id, body)` pairs in order. -/
theorem mux_demux_roundtrip_safe_cuts (L : List Seg) (ms : List Nat)
    (h : BlobHandler) (caps : Nat → Nat) (hcaps : ∀ i, 0 < caps i)
    (hok : ∀ id v, h.fails id v = none)
    (hsafe : safeSegs L) (hwf : wfSegs L) (hnorm : normP L)
    (hcuts : cutsOK (.atTop L) ms) (hsum : ms.sum = (encodeSegs L).length) :
    (∃ st', runWriter writerInit (sliceStream (.atTop L) ms) = (st', ms, none) ∧
        st'.textOut = textOf L ∧ st'.binOut = framesOf L) ∧
    demuxRun h caps (encodeSegs L) =
      (textOf L, (blobsOf L).map (evOfBlob h), none, []) := by
  constructor
  · obtain ⟨st', he, ht, hb⟩ := runWriter_sim ms writerInit (.atTop L)
      (Or.inl rfl) hsafe hwf hnorm trivial hcuts (by simpa [streamOfT] using hsum)
    refine ⟨st', he, ?_, ?_⟩
    · simpa [writerInit, textRemOf] using ht
    · simpa [writerInit, binRemOf] using hb
  · exact demuxRun_encode h hok caps hcaps L hsafe hwf

theorem mux_demux_roundtrip_safe_cuts_witness :
    safeSegs [Seg.text [65], .blob 7 [222, 173], .text [66]] ∧
    ((∃ st', runWriter writerInit
          (sliceStream (.atTop [Seg.text [65], .blob 7 [222, 173], .text [66]]) [1, 9, 10]) =
          (st', [1, 9, 10], none) ∧
        st'.textOut = textOf [Seg.text [65], .blob 7 [222, 173], .text [66]] ∧
        st'.binOut = framesOf [Seg.text [65], .blob 7 [222, 173], .text [66]]) ∧
      demuxRun readAllHandler (fun _ => 1)
          (encodeSegs [Seg.text [65], .blob 7 [222, 173], .text [66]]) =
        (textOf [Seg.text [65], .blob 7 [222, 173], .text [66]],
          (blobsOf [Seg.text [65], .blob 7 [222, 173], .text [66]]).map
            (evOfBlob readAllHandler), none, [])) :=
  ⟨by decide, mux_demux_roundtrip_safe_cuts [Seg.text [65], .blob 7 [222, 173], .text [66]]
    [1, 9, 10] readAllHandler (fun _ => 1) (fun _ => Nat.one_pos) (fun _ _ => rfl)
    (by decide) (by decide) (by decide) (by decide) (by decide)⟩

/-- C1 counterexample: a write partition that splits the 8-byte marker.
The stream is exactly one frame, yet the run reports success with nothing
routed to the binary sink (the whole frame leaks to the text sink). -/
theorem mux_marker_split_corrupts :
    (runWriter writerInit
        [(encodeSegs [Seg.blob 1 [222, 173]]).take 4,
          (encodeSegs [Seg.blob 1 [222, 173]]).drop 4]).1.binOut = [] ∧
    framesOf [Seg.blob 1 [222, 173]] ≠ [] ∧
    (runWriter writerInit
        [(encodeSegs [Seg.blob 1 [222, 173]]).take 4,
          (encodeSegs [Seg.blob 1 [222, 173]]).drop 4]).2.2 = none := by
  decide

/-- C2: byte conservation.  Every chunked run of the Writer from its
initial state accepts each chunk in full with no error and accounts for
every consumed byte as text-sink bytes plus binary-sink bytes plus the
buffered header prefix; and every demultiplexing run of the Reader returns
text, handler/drain costs and a remainder that add up exactly to the bytes
consumed from the source. -/
theorem byte_conservation_mux_demux (cs : List (List Nat)) (h : BlobHandler)
    (caps : Nat → Nat) (s t s' : List Nat) (evs : List ReadEv)
    (e : Option IOError) (hr : demuxRun h caps s = (t, evs, e, s')) :
    (∃ st', runWriter writerInit cs = (st', cs.map List.length, none) ∧
        wOut st' = (cs.map List.length).sum) ∧
    t.length + (evs.map evCost).sum + s'.length = s.length := by
  constructor
  · obtain ⟨st', he, hw, -⟩ := runWriter_total cs writerInit
      (fun hdr => absurd (show WMode.text = WMode.header from hdr) (by simp))
    exact ⟨st', he, by simpa [wOut, writerInit] using hw⟩
  · exact readerRun_conserve h caps (s.length + 1) 0 s t evs e s' hr

theorem byte_conservation_mux_demux_witness :
    demuxRun readAllHandler (fun _ => 1) [65, 66] = ([65, 66], [], none, []) ∧
    ((∃ st', runWriter writerInit [[65], [66, 67]] =
          (st', [[65], [66, 67]].map List.length, none) ∧
        wOut st' = ([[65], [66, 67]].map List.length).sum) ∧
      [65, 66].length + (([] : List ReadEv).map evCost).sum +
        ([] : List Nat).length = [65, 66].length) :=
  ⟨by decide, byte_conservation_mux_demux [[65], [66, 67]] readAllHandler
    (fun _ => 1) [65, 66] [65, 66] [] [] none (by decide)⟩

/-- C3: a failing blob handler's error is returned by the very `Read` call
that invoked it: the text already produced by the call is kept, the
remaining blob bytes are not drained (only the handler's own reads are
consumed), and the call produces nothing further; the surfaced error is the
handler's, distinct from end-of-stream. -/
theorem handler_error_propagates_immediately (h : BlobHandler) (u : List Nat)
    (cap id : Nat) (body rest : List Nat) (c : Nat)
    (hwin : ∀ i < u.length,
      ((u ++ (WriteBlobHeader id body.length ++ (body ++ rest))).drop i).take 8 ≠
        BlobMarker)
    (hid : id < 2 ^ 32) (hsz : body.length < 2 ^ 32)
    (hfail : h.fails id body = some c) (hcap : u.length < cap) :
    readerRead h cap (u ++ (WriteBlobHeader id body.length ++ (body ++ rest))) =
      (u, [.blobFail id body (min (h.reads id body) body.length) c],
        some (.handlerFail c),
        (body ++ rest).drop (min (h.reads id body) body.length)) ∧
    IOError.handlerFail c ≠ .eof :=
  ⟨readerRead_handler_fail h u cap id body rest c hwin hid hsz hfail hcap, by simp⟩

theorem handler_error_propagates_immediately_witness :
    (1 : Nat) < 2 ∧
    (readerRead (⟨fun _ _ => 1, fun _ _ => some 9⟩ : BlobHandler) 2
        ([65] ++ (WriteBlobHeader 3 [10, 11].length ++ ([10, 11] ++ [66]))) =
      ([65], [.blobFail 3 [10, 11] (min 1 [10, 11].length) 9],
        some (.handlerFail 9), ([10, 11] ++ [66]).drop (min 1 [10, 11].length)) ∧
      IOError.handlerFail 9 ≠ .eof) :=
  ⟨by decide, handler_error_propagates_immediately
    (⟨fun _ _ => 1, fun _ _ => some 9⟩ : BlobHandler) [65] 2 3 [10, 11] [66] 9
    (by decide) (by decide) (by decide) rfl (by decide)⟩

/-- C4: the header codec.  `WriteBlobHeader` emits exactly 16 bytes;
`ReadBlobHeader` on those bytes succeeds with the same `(id, size)` and
consumes exactly 16 bytes, leaving the rest of the stream; on any strict
truncation the underlying byte source's error is propagated unchanged:
`io.EOF`/`io.ErrUnexpectedEOF` from the marker read below 8 bytes, and the
two 4-byte `io.ReadFull` reads' own errors from 8 to 15 bytes. -/
theorem blob_header_roundtrip_and_short_errors (id size : Nat) (rest : List Nat)
    (hid : id < 2 ^ 32) (hsize : size < 2 ^ 32) :
    (WriteBlobHeader id size).length = 16 ∧
    ReadBlobHeader (WriteBlobHeader id size ++ rest) = (.ok (id, size), rest) ∧
    (∀ k, k < 8 → (ReadBlobHeader ((WriteBlobHeader id size).take k)).1 =
      .error (if k = 0 then .eof else .unexpectedEOF)) ∧
    (∀ k, 8 ≤ k → k < 16 → (ReadBlobHeader ((WriteBlobHeader id size).take k)).1 =
      .error (shortHeaderErr (k - 8))) := by
  refine ⟨writeBlobHeader_length id size,
    readBlobHeader_of_writeBlobHeader id size rest hid hsize, ?_, ?_⟩
  · intro k hk
    have hlen : ((WriteBlobHeader id size).take k).length = k := by
      rw [List.length_take, writeBlobHeader_length]
      omega
    by_cases hk0 : k = 0
    · subst hk0
      rfl
    · have h1 : readFull 8 ((WriteBlobHeader id size).take k) =
          (.error .unexpectedEOF, []) := by
        unfold readFull
        rw [hlen, if_neg (by omega), if_neg hk0]
      simp only [ReadBlobHeader, h1, if_neg hk0]
  · intro k h8 h16
    have htk8 : ((WriteBlobHeader id size).take k).take 8 = BlobMarker := by
      rw [List.take_take, show min 8 k = 8 by omega]
      have := take8_of_writeBlobHeader id size []
      rwa [List.append_nil] at this
    have hlen : ((WriteBlobHeader id size).take k).length = k := by
      rw [List.length_take, writeBlobHeader_length]
      omega
    have h1 : readFull 8 ((WriteBlobHeader id size).take k) =
        (.ok (((WriteBlobHeader id size).take k).take 8),
          ((WriteBlobHeader id size).take k).drop 8) :=
      readFull_exact _ _ (by omega)
    have h2 : ((WriteBlobHeader id size).take k).drop 8 =
        ((WriteBlobHeader id size).drop 8).take (k - 8) := by
      rw [List.drop_take]
    have h3 : (((WriteBlobHeader id size).drop 8).take (k - 8)).length = k - 8 := by
      rw [List.length_take, List.length_drop, writeBlobHeader_length]
      omega
    have h4 := rbhem_of_lt (((WriteBlobHeader id size).drop 8).take (k - 8))
      (by rw [h3]; omega)
    simp only [ReadBlobHeader, h1, if_pos htk8, h2, h4, h3]

theorem blob_header_roundtrip_and_short_errors_witness :
    (42 : Nat) < 2 ^ 32 ∧
    ((WriteBlobHeader 42 100).length = 16 ∧
      ReadBlobHeader (WriteBlobHeader 42 100 ++ [7]) = (.ok (42, 100), [7]) ∧
      (∀ k, k < 8 → (ReadBlobHeader ((WriteBlobHeader 42 100).take k)).1 =
        .error (if k = 0 then .eof else .unexpectedEOF)) ∧
      (∀ k, 8 ≤ k → k < 16 → (ReadBlobHeader ((WriteBlobHeader 42 100).take k)).1 =
        .error (shortHeaderErr (k - 8)))) :=
  ⟨by decide, blob_header_roundtrip_and_short_errors 42 100 [7] (by decide) (by decide)⟩

/-- C5: a readable 8-byte prefix that is not the marker makes
`ReadBlobHeader` fail with `io.ErrUnexpectedEOF`, which is distinct from
the `io.EOF` end-of-stream signal (the error it reports on an exhausted
source). -/
theorem framing_error_distinct_from_eof (s : List Nat) (h8 : 8 ≤ s.length)
    (hne : s.take 8 ≠ BlobMarker) :
    (ReadBlobHeader s).1 = .error .unexpectedEOF ∧
    (ReadBlobHeader ([] : List Nat)).1 = .error .eof ∧
    IOError.unexpectedEOF ≠ IOError.eof := by
  refine ⟨?_, rfl, by simp⟩
  have h1 : readFull 8 s = (.ok (s.take 8), s.drop 8) := readFull_exact 8 s h8
  simp only [ReadBlobHeader, h1, if_neg hne]

theorem framing_error_distinct_from_eof_witness :
    8 ≤ ([0, 0, 0, 0, 0, 0, 0, 0] : List Nat).length ∧
    ((ReadBlobHeader [0, 0, 0, 0, 0, 0, 0, 0]).1 = .error .unexpectedEOF ∧
      (ReadBlobHeader ([] : List Nat)).1 = .error .eof ∧
      IOError.unexpectedEOF ≠ IOError.eof) :=
  ⟨by decide, framing_error_distinct_from_eof [0, 0, 0, 0, 0, 0, 0, 0]
    (by decide) (by decide)⟩

/-- C6: a byte sequence matching a strict prefix of the marker but
diverging before completing it (at offset `j < 8`, on byte `d`) passes
through the Reader as ordinary text, byte for byte, for every
destination-capacity schedule — including such a prefix at end of
stream. -/
theorem partial_marker_text_passthrough (h : BlobHandler) (caps : Nat → Nat)
    (hcaps : ∀ i, 0 < caps i) (x y : List Nat) (j d : Nat) (hj : j < 8)
    (hd : d ≠ BlobMarker.getD j 0)
    (hmf : markerFree (x ++ (BlobMarker.take j ++ [d]) ++ y)) :
    demuxRun h caps (x ++ (BlobMarker.take j ++ [d]) ++ y) =
      (x ++ (BlobMarker.take j ++ [d]) ++ y, [], none, []) := by
  show readerRun h caps ((x ++ (BlobMarker.take j ++ [d]) ++ y).length + 1) 0
    (x ++ (BlobMarker.take j ++ [d]) ++ y) = _
  exact readerRun_text h caps hcaps _ _ 0 hmf (by omega)

theorem partial_marker_text_passthrough_witness :
    (4 : Nat) < 8 ∧
    demuxRun readAllHandler (fun _ => 1)
        ([65] ++ (BlobMarker.take 4 ++ [0]) ++ [66, 67]) =
      ([65] ++ (BlobMarker.take 4 ++ [0]) ++ [66, 67], [], none, []) :=
  ⟨by decide, partial_marker_text_passthrough readAllHandler (fun _ => 1)
    (fun _ => Nat.one_pos) [65] [66, 67] 4 0 (by decide) (by decide) (by decide)⟩

/-- C7: a handler that reads only part of the bounded view and succeeds:
the framing layer drains the remaining body bytes, the text after the blob
is still delivered in full, and the handler's recorded read is clamped to
the declared size (the bounded view never yields more than `size`
bytes). -/
theorem partial_blob_read_drains_and_bounds (h : BlobHandler) (caps : Nat → Nat)
    (hcaps : ∀ i, 0 < caps i) (hok : ∀ id v, h.fails id v = none)
    (u v body : List Nat) (id : Nat)
    (hsafe : safeSegs [.text u, .blob id body, .text v])
    (hid : id < 2 ^ 32) (hsz : body.length < 2 ^ 32) :
    demuxRun h caps (encodeSegs [.text u, .blob id body, .text v]) =
      (u ++ v, [.blob id body (min (h.reads id body) body.length)], none, []) ∧
    min (h.reads id body) body.length ≤ body.length := by
  refine ⟨?_, Nat.min_le_right _ _⟩
  have hd := demuxRun_encode h hok caps hcaps [.text u, .blob id body, .text v]
    hsafe ⟨hid, hsz, trivial⟩
  simpa [textOf, blobsOf, evOfBlob] using hd

theorem partial_blob_read_drains_and_bounds_witness :
    safeSegs [Seg.text [65], .blob 111 [222, 173, 190, 239], .text [66]] ∧
    (demuxRun (⟨fun _ _ => 1, fun _ _ => none⟩ : BlobHandler) (fun _ => 1)
        (encodeSegs [Seg.text [65], .blob 111 [222, 173, 190, 239], .text [66]]) =
      ([65] ++ [66], [.blob 111 [222, 173, 190, 239] (min 1 [222, 173, 190, 239].length)],
        none, []) ∧
      min 1 ([222, 173, 190, 239] : List Nat).length ≤
        ([222, 173, 190, 239] : List Nat).length) :=
  ⟨by decide, partial_blob_read_drains_and_bounds
    (⟨fun _ _ => 1, fun _ _ => none⟩ : BlobHandler) (fun _ => 1)
    (fun _ => Nat.one_pos) (fun _ _ => rfl) [65] [66] [222, 173, 190, 239] 111
    (by decide) (by decide) (by decide)⟩

/-- C8: the header-state decode-failure branch.  When the accumulated
16-byte buffer fails to decode, the Writer switches back to text mode,
flushes exactly the previously buffered bytes `header[:headerN]` (not the
whole 16-byte buffer) to the text sink, and only then surfaces the decode
error; the reported count is the `16 - headerN` input bytes that completed
the buffer plus the `headerN` flushed bytes (`n += nn` after the flush),
and the completing input bytes appear on no sink. -/
theorem header_decode_fail_flush_then_error (fuel : Nat) (st : WriterSt)
    (p : List Nat) (e : IOError) (hm : st.mode = .header) (hne : p ≠ [])
    (hge : 16 - st.hbuf.length ≤ p.length)
    (hdec : (ReadBlobHeader (st.hbuf ++ p.take (16 - st.hbuf.length))).1 =
      .error e) :
    writerWriteGo (fuel + 1) st p =
      ({ st with mode := .text, textOut := st.textOut ++ st.hbuf },
        16 - st.hbuf.length + st.hbuf.length, some e) := by
  rw [writerWriteGo_header_fail fuel st p hm hne hge e hdec,
    List.take_left' (rfl : st.hbuf.length = st.hbuf.length)]

theorem header_decode_fail_flush_then_error_witness :
    writerWriteGo (0 + 1)
        ⟨WMode.header, [1, 2, 3, 4, 5, 6, 7, 8], 0, 0, [], []⟩
        [9, 10, 11, 12, 13, 14, 15, 16] =
      (⟨WMode.text, [1, 2, 3, 4, 5, 6, 7, 8], 0, 0, [1, 2, 3, 4, 5, 6, 7, 8], []⟩,
        16, some .unexpectedEOF) :=
  (header_decode_fail_flush_then_error 0
    ⟨WMode.header, [1, 2, 3, 4, 5, 6, 7, 8], 0, 0, [], []⟩
    [9, 10, 11, 12, 13, 14, 15, 16] .unexpectedEOF rfl (by decide) (by decide)
    rfl).trans (by decide)

/-- C8 counterexample: with 8 bytes already buffered and 8 more arriving,
decode of the 16 accumulated bytes fails, and only the 8 previously
buffered bytes reach the text sink — not the whole 16-byte buffer the
claim describes. -/
theorem header_decode_fail_flushes_only_buffered :
    (writerWrite ⟨WMode.header, [1, 2, 3, 4, 5, 6, 7, 8], 0, 0, [], []⟩
        [9, 10, 11, 12, 13, 14, 15, 16]).1.textOut = [1, 2, 3, 4, 5, 6, 7, 8] ∧
    (writerWrite ⟨WMode.header, [1, 2, 3, 4, 5, 6, 7, 8], 0, 0, [], []⟩
        [9, 10, 11, 12, 13, 14, 15, 16]).2.2 = some .unexpectedEOF ∧
    (writerWrite ⟨WMode.header, [1, 2, 3, 4, 5, 6, 7, 8], 0, 0, [], []⟩
        [9, 10, 11, 12, 13, 14, 15, 16]).1.textOut ≠
      [1, 2, 3, 4, 5, 6, 7, 8] ++ [9, 10, 11, 12, 13, 14, 15, 16] := by
  decide

/-- C9: `Writer.Close` ignores the mode, attempts the text sink's close
first and propagates close errors; but when the text sink's close fails,
the binary sink's close is never attempted (the error short-circuits),
contrary to the claim that both sinks are always closed. -/
theorem close_order_and_error_propagation (st : WriterSt)
    (bc : Option (Option IOError)) (e : IOError) (r : Option IOError) :
    writerClose st (some none) (some r) = ([.closeText, .closeBinary], r) ∧
    writerClose st none (some r) = ([.closeBinary], r) ∧
    writerClose st (some none) none = ([.closeText], none) ∧
    writerClose st none none = ([], none) ∧
    writerClose st (some (some e)) bc = ([.closeText], some e) :=
  ⟨rfl, rfl, rfl, rfl, rfl⟩

/-- C9 counterexample: a failing text-sink close on a writer whose binary
sink does support closing — the binary close is never attempted. -/
theorem close_text_error_skips_binary :
    (writerClose writerInit (some (some (.closeFail 7))) (some none)).1 =
      [CloseEv.closeText] ∧
    CloseEv.closeBinary ∉
      (writerClose writerInit (some (some (.closeFail 7))) (some none)).1 ∧
    (writerClose writerInit (some (some (.closeFail 7))) (some none)).2 =
      some (.closeFail 7) := by
  decide

end TBR
